import Mathlib

/-!
Verification development for the layered-filesystem extraction and merge
engine of this repository (src/docker/images/extract_rootfs.py,
src/docker/images/export_rootfs_from_layout.py,
src/docker/images/overlay_deb_packages.py).

The Python code is shallowly embedded: string manipulation is mirrored
exactly (operating on the character lists underlying Lean strings), and the
on-disk destination tree manipulated through the os/shutil calls is modelled
as an in-memory tree of files, directories and symbolic links.  Modelling
boundaries, stated once here and referenced from the definitions:

* Symbolic links are never followed by the model.  Path resolution treats a
  symlink strictly as a leaf object (as os.path.lexists / os.path.islink do);
  predicates that follow links in Python (os.path.exists, os.path.isdir,
  os.path.isfile) are modelled on trees in which the resolved object is the
  node itself, i.e. the modelled fragment is the set of runs that do not
  route any path through a symbolic link.
* A normalized member name equal to ".." addresses the parent of the
  destination root, which lies outside the modelled tree; filesystem
  operations reaching such a segment are modelled as I/O failures.
* shutil.rmtree / os.unlink failure modes other than the ones the code
  branches on (EISDIR for os.unlink on a directory) are not modelled; a
  removal that the code requests on an existing node succeeds in the model.
* Hard links are modelled by copying the source file node (content and
  mode); inode identity beyond equality of content is outside the model.
-/

/-- Python str.lstrip("./"): remove every leading character that is '.' or
'/' (a character-set strip, not a prefix strip). -/
def lstripDotSlash (s : String) : String :=
  String.mk (s.data.dropWhile (fun c => c == '.' || c == '/'))

/-- Python str.rstrip("/"): remove every trailing '/' character. -/
def rstripSlash (s : String) : String :=
  String.mk (s.data.reverse.dropWhile (fun c => c == '/')).reverse

/-- Python str.startswith. -/
def strStartsWith (s pre : String) : Bool :=
  pre.data.isPrefixOf s.data

/-- Python str.endswith. -/
def strEndsWith (s suf : String) : Bool :=
  suf.data.reverse.isPrefixOf s.data.reverse

/-- Python s[n:]. -/
def strDrop (s : String) (n : Nat) : String :=
  String.mk (s.data.drop n)

/-- Python str.split(sep) for a single-character separator. -/
def splitCharsOn (sep : Char) : List Char → List (List Char)
  | [] => [[]]
  | c :: rest =>
      let r := splitCharsOn sep rest
      if c == sep then [] :: r
      else
        match r with
        | [] => [[c]]
        | g :: gs => (c :: g) :: gs

/-- Python path.split("/"). -/
def splitSlash (s : String) : List String :=
  (splitCharsOn '/' s.data).map (fun g => String.mk g)

/-- Python "/".join(comps). -/
def joinSlash : List String → String
  | [] => ""
  | [s] => s
  | s :: rest => s ++ "/" ++ joinSlash rest

/-- posixpath.basename: the text after the final '/'. -/
def pyBasename (p : String) : String :=
  String.mk ((p.data.reverse.takeWhile (fun c => c != '/')).reverse)

/-- posixpath.dirname: the text before the final '/', with trailing slashes
stripped unless the head consists only of slashes. -/
def pyDirname (p : String) : String :=
  let headRev := p.data.reverse.dropWhile (fun c => c != '/')
  if headRev.any (fun c => c != '/') then
    String.mk (headRev.dropWhile (fun c => c == '/')).reverse
  else
    String.mk headRev.reverse

/-- posixpath.join for two components. -/
def pyJoin (a b : String) : String :=
  if strStartsWith b "/" then b
  else if a = "" || strEndsWith a "/" then a ++ b
  else a ++ "/" ++ b

/-- The component loop of posixpath.normpath: drop "" and "." components;
".." pops the previous component unless there is nothing to pop (for a
relative path) or the previous component is itself "..". -/
def normpathComps (initialSlashes : Bool) : List String → List String → List String
  | acc, [] => acc
  | acc, comp :: rest =>
      if comp = "" ∨ comp = "." then normpathComps initialSlashes acc rest
      else if comp ≠ ".." ∨ ((¬ initialSlashes) ∧ acc = []) ∨ (acc ≠ [] ∧ acc.getLast? = some "..") then
        normpathComps initialSlashes (acc ++ [comp]) rest
      else
        normpathComps initialSlashes acc.dropLast rest

/-- posixpath.normpath. -/
def pyNormpath (path : String) : String :=
  if path = "" then "."
  else
    let slashes : Nat :=
      if strStartsWith path "/" then
        if strStartsWith path "//" ∧ ¬ strStartsWith path "///" then 2 else 1
      else 0
    let comps := splitSlash path
    let newComps := normpathComps (slashes ≠ 0) [] comps
    let joined := joinSlash newComps
    let result := String.mk (List.replicate slashes '/') ++ joined
    if result = "" then "." else result

/-- Failure taxonomy of the engine: ValueError raised for a path escaping the
destination root, and OSError-style failures from filesystem calls. -/
inductive ExtractErr where
  | pathTraversal (name : String)
  | ioError (tag : String)
deriving Repr, DecidableEq

/-- Model of _normalize_member_name from extract_rootfs.py (the copy in
overlay_deb_packages.py is character-for-character the same logic): strip all
leading '.' and '/' characters, reject the empty result, normalize, skip ""
and ".", raise for results beginning with "../". -/
def normalizeMemberName (name : String) : Except ExtractErr (Option String) :=
  let stripped := lstripDotSlash name
  if stripped = "" then Except.ok none
  else
    let normalized := pyNormpath stripped
    if normalized = "" ∨ normalized = "." then Except.ok none
    else if strStartsWith normalized "../" then Except.error (ExtractErr.pathTraversal name)
    else Except.ok (some normalized)

/-- One tar-archive record, as produced by tarfile.TarFile iteration: the raw
stored name, the entry kind (with link target for symlink / hardlink kinds
and content for regular files), and the permission bits. -/
inductive EntryKind where
  | regular (content : String)
  | directory
  | symlink (linkname : String)
  | hardlink (linkname : String)
  | other
deriving Repr, DecidableEq

structure Entry where
  name : String
  kind : EntryKind
  mode : Nat
deriving Repr, DecidableEq

/-- member.isfile() or member.isdir() or member.issym() or member.islnk():
the kind filter both extraction loops apply before anything else. -/
def isSupportedKind : EntryKind → Bool
  | EntryKind.regular _ => true
  | EntryKind.directory => true
  | EntryKind.symlink _ => true
  | EntryKind.hardlink _ => true
  | EntryKind.other => false

/-- A node of the destination tree: regular file (content, permission bits),
directory (permission bits, named children), or symbolic link (raw target
string, never resolved by the model). -/
inductive FSNode where
  | file (content : String) (mode : Nat)
  | dir (mode : Nat) (children : List (String × FSNode))
  | symlink (target : String)
deriving Repr

/-- os.makedirs intermediate/default directory mode (0o777 before umask). -/
def defaultDirMode : Nat := 0o777

/-- Mode given to a file freshly created by open(..., "wb") (0o666 before
umask); immediately overwritten by the chmod the code performs after every
write, so its value is never observable in a completed run. -/
def defaultNewFileMode : Nat := 0o666

def lookupChild : List (String × FSNode) → String → Option FSNode
  | [], _ => none
  | (m, v) :: rest, n => if m = n then some v else lookupChild rest n

def setChild : List (String × FSNode) → String → FSNode → List (String × FSNode)
  | [], n, v => [(n, v)]
  | (m, w) :: rest, n, v => if m = n then (n, v) :: rest else (m, w) :: setChild rest n v

def removeChild : List (String × FSNode) → String → List (String × FSNode)
  | [], _ => []
  | (m, w) :: rest, n => if m = n then removeChild rest n else (m, w) :: removeChild rest n

/-- Resolve a destination-root-relative segment list to the node it names
(no symlink following; see the module comment). -/
def getNode : List String → FSNode → Option FSNode
  | [], node => some node
  | n :: rest, FSNode.dir _ cs =>
      (match lookupChild cs n with
       | some child => getNode rest child
       | none => none)
  | _ :: _, _ => none

/-- Splitting a destination-root-relative path string into segments, as the
os.path.join of the destination root with the string resolves it. -/
def toSegs (s : String) : List String :=
  (splitSlash s).filter (fun t => t != "")

/-- os.path.lexists on a destination-relative path. -/
def lexistsAt (p : List String) (fs : FSNode) : Bool :=
  (getNode p fs).isSome

/-- os.path.isdir. -/
def isDirAt (p : List String) (fs : FSNode) : Bool :=
  match getNode p fs with
  | some (FSNode.dir _ _) => true
  | _ => false

/-- os.path.isfile. -/
def isFileAt (p : List String) (fs : FSNode) : Bool :=
  match getNode p fs with
  | some (FSNode.file _ _) => true
  | _ => false

/-- os.path.islink. -/
def isLinkAt (p : List String) (fs : FSNode) : Bool :=
  match getNode p fs with
  | some (FSNode.symlink _) => true
  | _ => false

/-- os.path.exists (symbolic links are modelled as never resolving; see the
module comment). -/
def existsAt (p : List String) (fs : FSNode) : Bool :=
  isFileAt p fs || isDirAt p fs

/-- os.listdir of a destination-relative directory. -/
def listdirAt (p : List String) (fs : FSNode) : List String :=
  match getNode p fs with
  | some (FSNode.dir _ cs) => cs.map (fun e => e.1)
  | _ => []

/-- Replace the child list of the directory at a path (total; leaves the
tree unchanged when the path does not lead to an existing directory). -/
def modifyChildren (f : List (String × FSNode) → List (String × FSNode)) : List String → FSNode → FSNode
  | [], FSNode.dir m cs => FSNode.dir m (f cs)
  | [], node => node
  | n :: rest, FSNode.dir m cs =>
      (match lookupChild cs n with
       | some child => FSNode.dir m (setChild cs n (modifyChildren f rest child))
       | none => FSNode.dir m cs)
  | _ :: _, node => node

/-- Model of _remove_path from extract_rootfs.py: no-op when the path does not
lexist; os.unlink for files and symlinks and shutil.rmtree for directories
both become deletion of the node (and, for directories, of its whole
subtree with it). -/
def removePath (p : List String) (fs : FSNode) : FSNode :=
  match getNode p fs with
  | none => fs
  | some _ =>
      match p with
      | [] => fs
      | _ :: _ => modifyChildren (fun cs => removeChild cs (p.getLastD "")) p.dropLast fs

/-- Run a fallible operation on the (parent-children, final-segment) pair a
path designates, failing when an intermediate segment is missing or not a
directory.  A ".." segment addresses the area outside the destination root,
which is outside the modelled tree (module comment). -/
def childOp (f : List (String × FSNode) → String → Except ExtractErr (List (String × FSNode))) : List String → FSNode → Except ExtractErr FSNode
  | [], _ => Except.error (ExtractErr.ioError "EINVAL")
  | [n], FSNode.dir m cs =>
      if n = ".." then Except.error (ExtractErr.ioError "OutsideRoot")
      else
        match f cs n with
        | Except.ok cs2 => Except.ok (FSNode.dir m cs2)
        | Except.error e => Except.error e
  | [_], _ => Except.error (ExtractErr.ioError "ENOTDIR")
  | n :: rest₁ :: rest₂, FSNode.dir m cs =>
      if n = ".." then Except.error (ExtractErr.ioError "OutsideRoot")
      else
        match lookupChild cs n with
        | some child =>
            (match childOp f (rest₁ :: rest₂) child with
             | Except.ok c2 => Except.ok (FSNode.dir m (setChild cs n c2))
             | Except.error e => Except.error e)
        | none => Except.error (ExtractErr.ioError "ENOENT")
  | _ :: _ :: _, _ => Except.error (ExtractErr.ioError "ENOTDIR")

/-- os.makedirs(path, exist_ok=True): walk the segments, creating missing
directories with the default mode; fail if an existing component is not a
directory. -/
def makedirs : List String → FSNode → Except ExtractErr FSNode
  | [], FSNode.dir m cs => Except.ok (FSNode.dir m cs)
  | [], _ => Except.error (ExtractErr.ioError "FileExists")
  | n :: rest, FSNode.dir m cs =>
      if n = ".." then Except.error (ExtractErr.ioError "OutsideRoot")
      else
        match lookupChild cs n with
        | some child =>
            (match makedirs rest child with
             | Except.ok c2 => Except.ok (FSNode.dir m (setChild cs n c2))
             | Except.error e => Except.error e)
        | none =>
            (match makedirs rest (FSNode.dir defaultDirMode []) with
             | Except.ok c2 => Except.ok (FSNode.dir m (setChild cs n c2))
             | Except.error e => Except.error e)
  | _ :: _, _ => Except.error (ExtractErr.ioError "NotADirectory")

/-- os.unlink: EISDIR on a directory, deletion otherwise. -/
def unlinkChild (cs : List (String × FSNode)) (n : String) : Except ExtractErr (List (String × FSNode)) :=
  match lookupChild cs n with
  | some (FSNode.dir _ _) => Except.error (ExtractErr.ioError "IsADirectory")
  | some _ => Except.ok (removeChild cs n)
  | none => Except.error (ExtractErr.ioError "ENOENT")

def unlinkAt (p : List String) (fs : FSNode) : Except ExtractErr FSNode :=
  childOp unlinkChild p fs

/-- os.symlink(target, path): EEXIST when something is already there. -/
def symlinkChild (target : String) (cs : List (String × FSNode)) (n : String) : Except ExtractErr (List (String × FSNode)) :=
  match lookupChild cs n with
  | none => Except.ok (setChild cs n (FSNode.symlink target))
  | some _ => Except.error (ExtractErr.ioError "FileExists")

def symlinkAt (p : List String) (target : String) (fs : FSNode) : Except ExtractErr FSNode :=
  childOp (symlinkChild target) p fs

/-- open(path, "wb") followed by shutil.copyfileobj: truncating write that
keeps the mode of an existing file, creates a fresh file otherwise, and
fails with IsADirectoryError on a directory.  Writing through an existing
symlink would be resolved by the real open; outside the modelled fragment
(module comment). -/
def openWriteChild (content : String) (cs : List (String × FSNode)) (n : String) : Except ExtractErr (List (String × FSNode)) :=
  match lookupChild cs n with
  | none => Except.ok (setChild cs n (FSNode.file content defaultNewFileMode))
  | some (FSNode.file _ fm) => Except.ok (setChild cs n (FSNode.file content fm))
  | some (FSNode.dir _ _) => Except.error (ExtractErr.ioError "IsADirectory")
  | some (FSNode.symlink _) => Except.error (ExtractErr.ioError "SymlinkFollow")

def openWriteAt (p : List String) (content : String) (fs : FSNode) : Except ExtractErr FSNode :=
  childOp (openWriteChild content) p fs

/-- os.chmod (the code only reaches it on paths it has just written or
checked to exist; a symlink target would be resolved by the real chmod,
outside the modelled fragment). -/
def chmodChild (mode : Nat) (cs : List (String × FSNode)) (n : String) : Except ExtractErr (List (String × FSNode)) :=
  match lookupChild cs n with
  | some (FSNode.file c _) => Except.ok (setChild cs n (FSNode.file c mode))
  | some (FSNode.dir _ children) => Except.ok (setChild cs n (FSNode.dir mode children))
  | some (FSNode.symlink _) => Except.error (ExtractErr.ioError "SymlinkFollow")
  | none => Except.error (ExtractErr.ioError "ENOENT")

def chmodAt (p : List String) (mode : Nat) (fs : FSNode) : Except ExtractErr FSNode :=
  childOp (chmodChild mode) p fs

/-- os.link(source, target): copy of the source file node (module comment);
EEXIST when the target is occupied, failure when the source is not a
regular file. -/
def linkAt (src dst : List String) (fs : FSNode) : Except ExtractErr FSNode :=
  match getNode src fs with
  | some (FSNode.file c m) =>
      childOp
        (fun cs n =>
          match lookupChild cs n with
          | none => Except.ok (setChild cs n (FSNode.file c m))
          | some _ => Except.error (ExtractErr.ioError "FileExists"))
        dst fs
  | some _ => Except.error (ExtractErr.ioError "EPERM")
  | none => Except.error (ExtractErr.ioError "ENOENT")

/-- Model of _apply_whiteout from extract_rootfs.py: classify by the base name of the
normalized member path; an opaque marker clears every direct child of the
(still kept) parent directory, an explicit marker removes the sibling path
named by stripping the 4-character ".wh." prefix; anything else is ordinary.
Returns (consumed, updated tree). -/
def applyWhiteout (dest : FSNode) (relpath : String) : Bool × FSNode :=
  let basename := pyBasename relpath
  let parent := pyDirname relpath
  if basename = ".wh..wh..opq" then
    let targetDir := toSegs parent
    if isDirAt targetDir dest then
      (true, (listdirAt targetDir dest).foldl (fun acc entry => removePath (targetDir ++ [entry]) acc) dest)
    else (true, dest)
  else if strStartsWith basename ".wh." then
    let targetRel := pyJoin parent (strDrop basename 4)
    let targetPath := toSegs targetRel
    if existsAt targetPath dest || isLinkAt targetPath dest then (true, removePath targetPath dest)
    else (true, dest)
  else (false, dest)

/-- Model of _extract_member from extract_rootfs.py: create the parent directory
chain, then materialize by kind — directories via makedirs (mode deferred
into dirPerms, masked to 0o777), symlinks by unlinking whatever lexists at
the target and creating the link, regular files by a truncating write
followed by chmod to the entry mode masked to 0o777.  Other kinds fall
through untouched. -/
def extractMember (relpath : String) (e : Entry) (dest : FSNode) (dirPerms : List (String × Nat)) : Except ExtractErr (FSNode × List (String × Nat)) :=
  let target := toSegs relpath
  let parentDir := target.dropLast
  match makedirs parentDir dest with
  | Except.error err => Except.error err
  | Except.ok dest1 =>
      match e.kind with
      | EntryKind.directory =>
          (match makedirs target dest1 with
           | Except.error err => Except.error err
           | Except.ok dest2 => Except.ok (dest2, dirPerms ++ [(relpath, e.mode &&& 0o777)]))
      | EntryKind.symlink linkname =>
          (match (if lexistsAt target dest1 then unlinkAt target dest1 else Except.ok dest1) with
           | Except.error err => Except.error err
           | Except.ok dest2 =>
               match symlinkAt target linkname dest2 with
               | Except.error err => Except.error err
               | Except.ok dest3 => Except.ok (dest3, dirPerms))
      | EntryKind.regular content =>
          (match openWriteAt target content dest1 with
           | Except.error err => Except.error err
           | Except.ok dest2 =>
               match chmodAt target (e.mode &&& 0o777) dest2 with
               | Except.error err => Except.error err
               | Except.ok dest3 => Except.ok (dest3, dirPerms))
      | _ => Except.ok (dest1, dirPerms)

/-- Per-layer mutable state of the extraction loop: the destination tree and
the per-layer pending_links / dir_perms buffers. -/
structure LayerState where
  fs : FSNode
  pendingLinks : List (String × String)
  dirPerms : List (String × Nat)

/-- The body of the member loop shared by extract_rootfs.main and
export_rootfs_from_layout._extract_layer: kind filter, name normalization
(skip on None, abort on traversal), whiteout application, hardlink deferral
(with the link target normalized through the same function), and
materialization. -/
def processMember (st : LayerState) (e : Entry) : Except ExtractErr LayerState :=
  if isSupportedKind e.kind then
    match normalizeMemberName e.name with
    | Except.error err => Except.error err
    | Except.ok none => Except.ok st
    | Except.ok (some relpath) =>
        let consumedFs := applyWhiteout st.fs relpath
        if consumedFs.1 then Except.ok { st with fs := consumedFs.2 }
        else
          match e.kind with
          | EntryKind.hardlink linkname =>
              (match normalizeMemberName linkname with
               | Except.error err => Except.error err
               | Except.ok none => Except.ok st
               | Except.ok (some linkTarget) =>
                   Except.ok { st with pendingLinks := st.pendingLinks ++ [(linkTarget, relpath)] })
          | _ =>
              (match extractMember relpath e st.fs st.dirPerms with
               | Except.error err => Except.error err
               | Except.ok (fs2, perms2) => Except.ok { st with fs := fs2, dirPerms := perms2 })
  else Except.ok st

def runMembers (st : LayerState) : List Entry → Except ExtractErr LayerState
  | [] => Except.ok st
  | e :: rest =>
      match processMember st e with
      | Except.error err => Except.error err
      | Except.ok st2 => runMembers st2 rest

/-- The deferred-hardlink pass (the loop at the end of extract_rootfs.main,
of export_rootfs_from_layout._extract_layer, and _apply_hardlinks of
overlay_deb_packages.py — all three perform the same steps): drop a
directive whose source does not exist, otherwise create the parent chain,
remove whatever lexists at the target, and hard-link. -/
def applyHardlinks (fs : FSNode) : List (String × String) → Except ExtractErr FSNode
  | [] => Except.ok fs
  | (sourceRel, destRel) :: rest =>
      let sourcePath := toSegs sourceRel
      let targetPath := toSegs destRel
      if existsAt sourcePath fs then
        match makedirs targetPath.dropLast fs with
        | Except.error err => Except.error err
        | Except.ok fs1 =>
            (match (if lexistsAt targetPath fs1 then unlinkAt targetPath fs1 else Except.ok fs1) with
             | Except.error err => Except.error err
             | Except.ok fs2 =>
                 match linkAt sourcePath targetPath fs2 with
                 | Except.error err => Except.error err
                 | Except.ok fs3 => applyHardlinks fs3 rest)
      else applyHardlinks fs rest

/-- The deferred directory-permission pass (end of extract_rootfs.main, of
_extract_layer, and _apply_dir_perms of overlay_deb_packages.py): chmod each
recorded directory that still exists, in recorded order. -/
def applyDirPerms (fs : FSNode) : List (String × Nat) → Except ExtractErr FSNode
  | [] => Except.ok fs
  | (p, mode) :: rest =>
      let segs := toSegs p
      if existsAt segs fs then
        match chmodAt segs mode fs with
        | Except.error err => Except.error err
        | Except.ok fs2 => applyDirPerms fs2 rest
      else applyDirPerms fs rest

/-- One full layer pass of extract_rootfs.main /
export_rootfs_from_layout._extract_layer: stream the members, then resolve
that layer's hardlinks, then reapply that layer's directory modes. -/
def extractLayer (dest : FSNode) (entries : List Entry) : Except ExtractErr FSNode :=
  match runMembers { fs := dest, pendingLinks := [], dirPerms := [] } entries with
  | Except.error err => Except.error err
  | Except.ok st =>
      match applyHardlinks st.fs st.pendingLinks with
      | Except.error err => Except.error err
      | Except.ok fs2 => applyDirPerms fs2 st.dirPerms

/-- The layer loop of export_rootfs_from_layout.main: layers applied fully
sequentially onto one shared destination tree. -/
def mergeLayers (dest : FSNode) : List (List Entry) → Except ExtractErr FSNode
  | [] => Except.ok dest
  | layer :: rest =>
      match extractLayer dest layer with
      | Except.error err => Except.error err
      | Except.ok fs2 => mergeLayers fs2 rest

/-- Destination preparation in extract_rootfs.main (lines 118-120): an
existing destination is removed with _safe_rmtree and recreated empty by
os.makedirs, so the extraction always starts from an empty root. -/
def prepareDestination (existing : Option FSNode) : FSNode :=
  match existing with
  | some _ => FSNode.dir defaultDirMode []
  | none => FSNode.dir defaultDirMode []

/-- extract_rootfs.main: destination preparation followed by a single layer
pass over the tarball members. -/
def extractRootfsMain (existing : Option FSNode) (entries : List Entry) : Except ExtractErr FSNode :=
  extractLayer (prepareDestination existing) entries

/-- Model of _ensure_parent from overlay_deb_packages.py: os.makedirs on the dirname
when it is nonempty (joined under the destination root the dirname is always
nonempty, so the parent chain is always ensured). -/
def ensureParent (target : List String) (fs : FSNode) : Except ExtractErr FSNode :=
  makedirs target.dropLast fs

/-- Model of _extract_member from overlay_deb_packages.py: like the extract_rootfs
one but the parent chain is ensured inside the symlink and regular-file
branches (and by makedirs itself for directories). -/
def overlayExtractMember (relpath : String) (e : Entry) (dest : FSNode) (dirPerms : List (String × Nat)) : Except ExtractErr (FSNode × List (String × Nat)) :=
  let target := toSegs relpath
  match e.kind with
  | EntryKind.directory =>
      (match makedirs target dest with
       | Except.error err => Except.error err
       | Except.ok dest2 => Except.ok (dest2, dirPerms ++ [(relpath, e.mode &&& 0o777)]))
  | EntryKind.symlink linkname =>
      (match ensureParent target dest with
       | Except.error err => Except.error err
       | Except.ok dest1 =>
           match (if lexistsAt target dest1 then unlinkAt target dest1 else Except.ok dest1) with
           | Except.error err => Except.error err
           | Except.ok dest2 =>
               match symlinkAt target linkname dest2 with
               | Except.error err => Except.error err
               | Except.ok dest3 => Except.ok (dest3, dirPerms))
  | EntryKind.regular content =>
      (match ensureParent target dest with
       | Except.error err => Except.error err
       | Except.ok dest1 =>
           match openWriteAt target content dest1 with
           | Except.error err => Except.error err
           | Except.ok dest2 =>
               match chmodAt target (e.mode &&& 0o777) dest2 with
               | Except.error err => Except.error err
               | Except.ok dest3 => Except.ok (dest3, dirPerms))
  | _ => Except.ok (dest, dirPerms)

/-- Body of the member loop of _extract_tar_stream in
overlay_deb_packages.py: kind filter, name normalization, hardlink deferral,
materialization — and no whiteout handling at all. -/
def overlayProcessMember (st : LayerState) (e : Entry) : Except ExtractErr LayerState :=
  if isSupportedKind e.kind then
    match normalizeMemberName e.name with
    | Except.error err => Except.error err
    | Except.ok none => Except.ok st
    | Except.ok (some relpath) =>
        match e.kind with
        | EntryKind.hardlink linkname =>
            (match normalizeMemberName linkname with
             | Except.error err => Except.error err
             | Except.ok none => Except.ok st
             | Except.ok (some linkTarget) =>
                 Except.ok { st with pendingLinks := st.pendingLinks ++ [(linkTarget, relpath)] })
        | _ =>
            (match overlayExtractMember relpath e st.fs st.dirPerms with
             | Except.error err => Except.error err
             | Except.ok (fs2, perms2) => Except.ok { st with fs := fs2, dirPerms := perms2 })
  else Except.ok st

def runOverlayMembers (st : LayerState) : List Entry → Except ExtractErr LayerState
  | [] => Except.ok st
  | e :: rest =>
      match overlayProcessMember st e with
      | Except.error err => Except.error err
      | Except.ok st2 => runOverlayMembers st2 rest

/-- Model of _extract_tar_stream from overlay_deb_packages.py: stream the members of
one decoded data.tar payload, then _apply_hardlinks, then _apply_dir_perms. -/
def extractTarStream (dest : FSNode) (entries : List Entry) : Except ExtractErr FSNode :=
  match runOverlayMembers { fs := dest, pendingLinks := [], dirPerms := [] } entries with
  | Except.error err => Except.error err
  | Except.ok st =>
      match applyHardlinks st.fs st.pendingLinks with
      | Except.error err => Except.error err
      | Except.ok fs2 => applyDirPerms fs2 st.dirPerms

/-- The decompression transform _open_data_stream selects from the payload
member filename suffix. -/
inductive Codec where
  | xz
  | gz
  | bz2
  | plain
deriving Repr, DecidableEq

/-- Model of _open_data_stream from overlay_deb_packages.py: ".xz" → lzma, ".gz" →
gzip, ".bz2" → bz2, anything else → the raw byte stream. -/
def openDataStream (filename : String) : Codec :=
  if strEndsWith filename ".xz" then Codec.xz
  else if strEndsWith filename ".gz" then Codec.gz
  else if strEndsWith filename ".bz2" then Codec.bz2
  else Codec.plain

/-- One member of the Debian ar archive: its header name and its payload,
already decoded to the tar entries the member would yield (the ar byte
framing and the decompression are the out-of-scope byte-level collaborators). -/
structure ArMember where
  name : String
  data : List Entry
deriving Repr, DecidableEq

/-- The member scan of _apply_deb_package: walk the ar members in order; on
the first whose name, stripped of trailing '/', starts with "data.tar",
select the codec from that stripped name and hand the payload on; if the
archive is exhausted, fail with the missing-payload ValueError. -/
def findDataMember : List ArMember → Except ExtractErr (Codec × List Entry)
  | [] => Except.error (ExtractErr.ioError "missing data.tar payload")
  | m :: rest =>
      let normalizedName := rstripSlash m.name
      if strStartsWith normalizedName "data.tar" then
        Except.ok (openDataStream normalizedName, m.data)
      else findDataMember rest

/-- Model of _apply_deb_package: select the data.tar member and extract it through
_extract_tar_stream onto the destination rootfs. -/
def applyDebPackage (dest : FSNode) (members : List ArMember) : Except ExtractErr FSNode :=
  match findDataMember members with
  | Except.error err => Except.error err
  | Except.ok (_, entries) => extractTarStream dest entries

/-- Is q an initial segment of p (p lies at or under the tree position q)? -/
def pathUnder : List String → List String → Bool
  | [], _ => true
  | _ :: _, [] => false
  | a :: q, b :: p => a == b && pathUnder q p

/-- Shape preservation between two resolution results: a file keeps content
and mode, a symlink keeps its target, a directory stays a directory with the
same mode (its child list may change), an absent node imposes nothing. -/
def nodeShapeKept : Option FSNode → Option FSNode → Prop
  | some (FSNode.file c m), o => o = some (FSNode.file c m)
  | some (FSNode.dir m _), o => ∃ cs2, o = some (FSNode.dir m cs2)
  | some (FSNode.symlink t), o => o = some (FSNode.symlink t)
  | none, _ => True

/-- What a pre-existing object still being present and unchanged means for
one destination-relative path. -/
def preservedAt (fs fs2 : FSNode) (p : List String) : Prop :=
  nodeShapeKept (getNode p fs) (getNode p fs2)

/-- Does one tar entry name the destination path p (or an ancestor of p)?
Entries whose materialization can affect the object at p are exactly those
whose normalized member path is an initial segment of p; unsupported kinds
and skipped names touch nothing. -/
def touchesPath (e : Entry) (p : List String) : Bool :=
  isSupportedKind e.kind &&
    (match normalizeMemberName e.name with
     | Except.ok (some r) => pathUnder (toSegs r) p
     | _ => false)

/-- An empty freshly created destination root. -/
def emptyRoot : FSNode := FSNode.dir defaultDirMode []

/-! Helper lemmas about the child association lists, path resolution, and
the frame properties of the filesystem operations; then the claim theorems. -/

theorem lookup_setChild_self (cs : List (String × FSNode)) (n : String) (v : FSNode) :
    lookupChild (setChild cs n v) n = some v := by
  induction cs with
  | nil => simp [setChild, lookupChild]
  | cons e rest ih =>
      obtain ⟨m, w⟩ := e
      by_cases h : m = n
      · simp [setChild, h, lookupChild]
      · simp [setChild, h, lookupChild, ih]

theorem lookup_setChild_ne (cs : List (String × FSNode)) (n k : String) (v : FSNode)
    (h : k ≠ n) : lookupChild (setChild cs n v) k = lookupChild cs k := by
  induction cs with
  | nil => simp [setChild, lookupChild, Ne.symm h]
  | cons e rest ih =>
      obtain ⟨m, w⟩ := e
      by_cases hm : m = n
      · subst hm
        simp [setChild, lookupChild, Ne.symm h]
      · simp [setChild, hm, lookupChild, ih]

theorem lookup_removeChild_self (cs : List (String × FSNode)) (n : String) :
    lookupChild (removeChild cs n) n = none := by
  induction cs with
  | nil => simp [removeChild, lookupChild]
  | cons e rest ih =>
      obtain ⟨m, w⟩ := e
      by_cases h : m = n
      · simp [removeChild, h, ih]
      · simp [removeChild, h, lookupChild, ih]

theorem lookup_removeChild_ne (cs : List (String × FSNode)) (n k : String)
    (h : k ≠ n) : lookupChild (removeChild cs n) k = lookupChild cs k := by
  induction cs with
  | nil => simp [removeChild]
  | cons e rest ih =>
      obtain ⟨m, w⟩ := e
      by_cases hm : m = n
      · subst hm
        simp [removeChild, lookupChild, Ne.symm h, ih]
      · simp [removeChild, hm, lookupChild, ih]

theorem setChild_lookup_self (cs : List (String × FSNode)) (n : String) (v : FSNode)
    (h : lookupChild cs n = some v) : setChild cs n v = cs := by
  induction cs with
  | nil => simp [lookupChild] at h
  | cons e rest ih =>
      obtain ⟨m, w⟩ := e
      by_cases hm : m = n
      · subst hm
        simp [lookupChild] at h
        simp [setChild, h]
      · simp [lookupChild, hm] at h
        simp [setChild, hm, ih h]

theorem removeChild_lookup_none (cs : List (String × FSNode)) (n : String)
    (h : lookupChild cs n = none) : removeChild cs n = cs := by
  induction cs with
  | nil => simp [removeChild]
  | cons e rest ih =>
      obtain ⟨m, w⟩ := e
      by_cases hm : m = n
      · simp [lookupChild, hm] at h
      · simp [lookupChild, hm] at h
        simp [removeChild, hm, ih h]

theorem pathUnder_refl (p : List String) : pathUnder p p = true := by
  induction p with
  | nil => rfl
  | cons a p ih => simp [pathUnder, ih]

theorem pathUnder_append (q r : List String) : pathUnder q (q ++ r) = true := by
  induction q with
  | nil => rfl
  | cons a q ih => simp [pathUnder, ih]

theorem getNode_append (q r : List String) (fs : FSNode) :
    getNode (q ++ r) fs = (getNode q fs).bind (fun nd => getNode r nd) := by
  induction q generalizing fs with
  | nil => simp [getNode]
  | cons n q ih =>
      cases fs with
      | file c m => simp [getNode]
      | symlink t => simp [getNode]
      | dir m cs =>
          simp only [List.cons_append, getNode]
          cases lookupChild cs n with
          | none => simp
          | some child => simpa using ih child

theorem dropLast_concat_seg (q : List String) (k : String) : (q ++ [k]).dropLast = q := by
  simp

theorem getLastD_concat_seg (q : List String) (k d : String) : (q ++ [k]).getLastD d = k := by
  induction q with
  | nil => rfl
  | cons a q ih =>
      cases q with
      | nil => rfl
      | cons b q => simpa using ih

theorem getNode_modifyChildren_at (f : List (String × FSNode) → List (String × FSNode))
    (q : List String) (fs : FSNode) (m : Nat) (cs : List (String × FSNode))
    (h : getNode q fs = some (FSNode.dir m cs)) :
    getNode q (modifyChildren f q fs) = some (FSNode.dir m (f cs)) := by
  induction q generalizing fs with
  | nil =>
      simp [getNode] at h
      subst h
      simp [modifyChildren, getNode]
  | cons n q ih =>
      cases fs with
      | file c fm => simp [getNode] at h
      | symlink t => simp [getNode] at h
      | dir fm fcs =>
          simp only [getNode] at h
          cases hl : lookupChild fcs n with
          | none => simp [hl] at h
          | some child =>
              simp only [hl] at h
              simp only [modifyChildren, hl, getNode, lookup_setChild_self]
              exact ih child h

theorem getNode_modifyChildren_diverge (f : List (String × FSNode) → List (String × FSNode))
    (q p : List String) (fs : FSNode) (hq : pathUnder q p = false) (hp : pathUnder p q = false) :
    getNode p (modifyChildren f q fs) = getNode p fs := by
  induction q generalizing fs p with
  | nil => simp [pathUnder] at hq
  | cons n q ih =>
      cases fs with
      | file c fm => simp [modifyChildren]
      | symlink t => simp [modifyChildren]
      | dir fm fcs =>
          cases hl : lookupChild fcs n with
          | none => simp [modifyChildren, hl]
          | some child =>
              simp only [modifyChildren, hl]
              cases p with
              | nil => simp [pathUnder] at hp
              | cons k p2 =>
                  by_cases hk : k = n
                  · subst hk
                    simp [pathUnder] at hq hp
                    simp only [getNode, lookup_setChild_self, hl]
                    exact ih p2 child hq hp
                  · simp only [getNode, lookup_setChild_ne fcs n k _ hk, hl]

theorem getNode_modifyChildren_below (f : List (String × FSNode) → List (String × FSNode))
    (q : List String) (k : String) (p2 : List String) (fs : FSNode) (m : Nat)
    (cs : List (String × FSNode)) (h : getNode q fs = some (FSNode.dir m cs)) :
    getNode (q ++ k :: p2) (modifyChildren f q fs) =
      (match lookupChild (f cs) k with
       | some nd => getNode p2 nd
       | none => none) := by
  have hat := getNode_modifyChildren_at f q fs m cs h
  rw [getNode_append, hat]
  simp [getNode]

theorem nodeShapeKept_refl (o : Option FSNode) : nodeShapeKept o o := by
  cases o with
  | none => trivial
  | some nd => cases nd <;> simp [nodeShapeKept]

theorem nodeShapeKept_trans (o1 o2 o3 : Option FSNode)
    (h12 : nodeShapeKept o1 o2) (h23 : nodeShapeKept o2 o3) : nodeShapeKept o1 o3 := by
  cases o1 with
  | none => trivial
  | some nd =>
      cases nd with
      | file c m =>
          simp only [nodeShapeKept] at h12 h23 ⊢
          rw [h12] at h23
          exact h23
      | dir m cs =>
          simp only [nodeShapeKept] at h12 h23 ⊢
          obtain ⟨cs2, h2⟩ := h12
          rw [h2] at h23
          exact h23
      | symlink t =>
          simp only [nodeShapeKept] at h12 h23 ⊢
          rw [h12] at h23
          exact h23

theorem preservedAt_of_getNode_eq (fs fs2 : FSNode) (p : List String)
    (h : getNode p fs2 = getNode p fs) : preservedAt fs fs2 p := by
  unfold preservedAt
  rw [h]
  exact nodeShapeKept_refl _

theorem preservedAt_refl (fs : FSNode) (p : List String) : preservedAt fs fs p :=
  preservedAt_of_getNode_eq fs fs p rfl

theorem preservedAt_trans (fs1 fs2 fs3 : FSNode) (p : List String)
    (h12 : preservedAt fs1 fs2 p) (h23 : preservedAt fs2 fs3 p) : preservedAt fs1 fs3 p :=
  nodeShapeKept_trans _ _ _ h12 h23

theorem preservedAt_modifyChildren (f : List (String × FSNode) → List (String × FSNode))
    (q p : List String) (fs : FSNode) (h : pathUnder q p = false) :
    preservedAt fs (modifyChildren f q fs) p := by
  induction q generalizing fs p with
  | nil => simp [pathUnder] at h
  | cons n q ih =>
      cases fs with
      | file c fm => exact preservedAt_of_getNode_eq _ _ _ (by simp [modifyChildren])
      | symlink t => exact preservedAt_of_getNode_eq _ _ _ (by simp [modifyChildren])
      | dir fm fcs =>
          cases hl : lookupChild fcs n with
          | none => exact preservedAt_of_getNode_eq _ _ _ (by simp [modifyChildren, hl])
          | some child =>
              cases p with
              | nil =>
                  unfold preservedAt
                  simp only [modifyChildren, hl, getNode, nodeShapeKept]
                  exact ⟨_, rfl⟩
              | cons k p2 =>
                  by_cases hk : k = n
                  · subst hk
                    simp only [pathUnder, beq_self_eq_true, Bool.true_and] at h
                    unfold preservedAt
                    simp only [modifyChildren, hl, getNode, lookup_setChild_self]
                    exact ih p2 child h
                  · refine preservedAt_of_getNode_eq _ _ _ ?e1
                    simp only [modifyChildren, hl, getNode, lookup_setChild_ne fcs n k _ hk]

theorem makedirs_preserves (q : List String) (fs fs2 : FSNode)
    (h : makedirs q fs = Except.ok fs2) (p : List String) : preservedAt fs fs2 p := by
  induction q generalizing fs fs2 p with
  | nil =>
      cases fs with
      | dir m cs =>
          simp [makedirs] at h
          subst h
          exact preservedAt_refl _ _
      | file c m => simp [makedirs] at h
      | symlink t => simp [makedirs] at h
  | cons n q ih =>
      cases fs with
      | file c m => simp [makedirs] at h
      | symlink t => simp [makedirs] at h
      | dir fm fcs =>
          by_cases hdd : n = ".."
          · simp [makedirs, hdd] at h
          · simp only [makedirs, hdd, if_false] at h
            cases hl : lookupChild fcs n with
            | some child =>
                simp only [hl] at h
                cases hmk : makedirs q child with
                | error e => rw [hmk] at h; exact absurd h (by simp)
                | ok c2 =>
                    rw [hmk] at h
                    simp only [Except.ok.injEq] at h
                    subst h
                    cases p with
                    | nil =>
                        unfold preservedAt
                        simp [getNode, nodeShapeKept]
                    | cons k p2 =>
                        by_cases hk : k = n
                        · subst hk
                          unfold preservedAt
                          simp only [getNode, lookup_setChild_self, hl]
                          exact ih child c2 hmk p2
                        · exact preservedAt_of_getNode_eq _ _ _ (by
                            simp only [getNode, lookup_setChild_ne fcs n k _ hk])
            | none =>
                simp only [hl] at h
                cases hmk : makedirs q (FSNode.dir defaultDirMode []) with
                | error e => rw [hmk] at h; exact absurd h (by simp)
                | ok c2 =>
                    rw [hmk] at h
                    simp only [Except.ok.injEq] at h
                    subst h
                    cases p with
                    | nil =>
                        unfold preservedAt
                        simp [getNode, nodeShapeKept]
                    | cons k p2 =>
                        by_cases hk : k = n
                        · subst hk
                          unfold preservedAt
                          simp only [getNode, lookup_setChild_self, hl]
                          trivial
                        · exact preservedAt_of_getNode_eq _ _ _ (by
                            simp only [getNode, lookup_setChild_ne fcs n k _ hk])

theorem makedirs_of_exists (q : List String) (fs : FSNode) (m : Nat)
    (cs : List (String × FSNode)) (hdd : ∀ s ∈ q, s ≠ "..")
    (h : getNode q fs = some (FSNode.dir m cs)) : makedirs q fs = Except.ok fs := by
  induction q generalizing fs with
  | nil =>
      simp [getNode] at h
      subst h
      simp [makedirs]
  | cons n q ih =>
      cases fs with
      | file c fm => simp [getNode] at h
      | symlink t => simp [getNode] at h
      | dir fm fcs =>
          simp only [getNode] at h
          cases hl : lookupChild fcs n with
          | none => simp [hl] at h
          | some child =>
              simp only [hl] at h
              have hn : n ≠ ".." := hdd n (by simp)
              have hq : ∀ s ∈ q, s ≠ ".." := fun s hs => hdd s (by simp [hs])
              simp only [makedirs, hn, if_false, hl, ih child hq h,
                setChild_lookup_self fcs n child hl]

theorem childOp_cons_cons (f : List (String × FSNode) → String → Except ExtractErr (List (String × FSNode)))
    (a : String) (r : List String) (m : Nat) (cs : List (String × FSNode)) (hr : r ≠ []) :
    childOp f (a :: r) (FSNode.dir m cs) =
      (if a = ".." then Except.error (ExtractErr.ioError "OutsideRoot")
       else
         match lookupChild cs a with
         | some child =>
             (match childOp f r child with
              | Except.ok c2 => Except.ok (FSNode.dir m (setChild cs a c2))
              | Except.error e => Except.error e)
         | none => Except.error (ExtractErr.ioError "ENOENT")) := by
  cases r with
  | nil => exact absurd rfl hr
  | cons b r2 => rfl

theorem childOp_ok_at (f : List (String × FSNode) → String → Except ExtractErr (List (String × FSNode)))
    (q : List String) (n : String) (fs : FSNode) (m : Nat) (cs cs2 : List (String × FSNode))
    (hdd : ∀ s ∈ q, s ≠ "..") (hn : n ≠ "..")
    (h : getNode q fs = some (FSNode.dir m cs)) (hf : f cs n = Except.ok cs2) :
    childOp f (q ++ [n]) fs = Except.ok (modifyChildren (fun _ => cs2) q fs) := by
  induction q generalizing fs with
  | nil =>
      simp only [getNode, Option.some.injEq] at h
      subst h
      simp [childOp, hn, hf, modifyChildren]
  | cons a q ih =>
      cases fs with
      | file c fm => simp [getNode] at h
      | symlink t => simp [getNode] at h
      | dir fm fcs =>
          simp only [getNode] at h
          cases hl : lookupChild fcs a with
          | none => simp [hl] at h
          | some child =>
              simp only [hl] at h
              have ha : a ≠ ".." := hdd a (by simp)
              have hq : ∀ s ∈ q, s ≠ ".." := fun s hs => hdd s (by simp [hs])
              rw [List.cons_append, childOp_cons_cons f a (q ++ [n]) fm fcs (by simp)]
              simp only [ha, if_false, hl, ih child hq h]
              simp [modifyChildren, hl]

theorem childOp_err_at (f : List (String × FSNode) → String → Except ExtractErr (List (String × FSNode)))
    (q : List String) (n : String) (fs : FSNode) (m : Nat) (cs : List (String × FSNode))
    (e : ExtractErr) (hdd : ∀ s ∈ q, s ≠ "..") (hn : n ≠ "..")
    (h : getNode q fs = some (FSNode.dir m cs)) (hf : f cs n = Except.error e) :
    childOp f (q ++ [n]) fs = Except.error e := by
  induction q generalizing fs with
  | nil =>
      simp only [getNode, Option.some.injEq] at h
      subst h
      simp [childOp, hn, hf]
  | cons a q ih =>
      cases fs with
      | file c fm => simp [getNode] at h
      | symlink t => simp [getNode] at h
      | dir fm fcs =>
          simp only [getNode] at h
          cases hl : lookupChild fcs a with
          | none => simp [hl] at h
          | some child =>
              simp only [hl] at h
              have ha : a ≠ ".." := hdd a (by simp)
              have hq : ∀ s ∈ q, s ≠ ".." := fun s hs => hdd s (by simp [hs])
              rw [List.cons_append, childOp_cons_cons f a (q ++ [n]) fm fcs (by simp)]
              simp [ha, hl, ih child hq h]

theorem childOp_frame (f : List (String × FSNode) → String → Except ExtractErr (List (String × FSNode)))
    (hloc : ∀ cs n cs2, f cs n = Except.ok cs2 → ∀ k, k ≠ n → lookupChild cs2 k = lookupChild cs k)
    (t p : List String) (fs fs2 : FSNode)
    (h : childOp f t fs = Except.ok fs2) (hp : pathUnder t p = false) :
    preservedAt fs fs2 p := by
  induction t generalizing fs fs2 p with
  | nil => simp [childOp] at h
  | cons n t2 ih =>
      cases t2 with
      | nil =>
          cases fs with
          | file c fm => simp [childOp] at h
          | symlink tl => simp [childOp] at h
          | dir fm fcs =>
              by_cases hdd : n = ".."
              · simp [childOp, hdd] at h
              · simp only [childOp, hdd, if_false] at h
                cases hf : f fcs n with
                | error e => rw [hf] at h; exact absurd h (by simp)
                | ok cs2 =>
                    rw [hf] at h
                    simp only [Except.ok.injEq] at h
                    subst h
                    cases p with
                    | nil =>
                        unfold preservedAt
                        simp [getNode, nodeShapeKept]
                    | cons k p2 =>
                        simp only [pathUnder, Bool.and_eq_false_iff] at hp
                        have hk : k ≠ n := by
                          rcases hp with hp | hp
                          · intro hkn
                            subst hkn
                            simp at hp
                          · simp [pathUnder] at hp
                        refine preservedAt_of_getNode_eq _ _ _ ?e2
                        simp only [getNode, hloc fcs n cs2 hf k hk]
      | cons b t3 =>
          cases fs with
          | file c fm => simp [childOp] at h
          | symlink tl => simp [childOp] at h
          | dir fm fcs =>
              by_cases hdd : n = ".."
              · rw [childOp_cons_cons f n (b :: t3) fm fcs (by simp)] at h
                simp [hdd] at h
              · rw [childOp_cons_cons f n (b :: t3) fm fcs (by simp)] at h
                simp only [hdd, if_false] at h
                cases hl : lookupChild fcs n with
                | none => simp [hl] at h
                | some child =>
                    simp only [hl] at h
                    cases hc : childOp f (b :: t3) child with
                    | error e => rw [hc] at h; exact absurd h (by simp)
                    | ok c2 =>
                        rw [hc] at h
                        simp only [Except.ok.injEq] at h
                        subst h
                        cases p with
                        | nil =>
                            unfold preservedAt
                            simp [getNode, nodeShapeKept]
                        | cons k p2 =>
                            by_cases hk : k = n
                            · subst hk
                              simp only [pathUnder, beq_self_eq_true, Bool.true_and] at hp
                              unfold preservedAt
                              simp only [getNode, hl, lookup_setChild_self]
                              exact ih p2 child c2 hc hp
                            · refine preservedAt_of_getNode_eq _ _ _ ?e3
                              simp only [getNode, lookup_setChild_ne fcs n k _ hk]

theorem seg_concat_decomp (t : List String) (ht : t ≠ []) :
    t = t.dropLast ++ [t.getLastD ""] := by
  induction t with
  | nil => exact absurd rfl ht
  | cons a t2 ih =>
      cases t2 with
      | nil => rfl
      | cons b t3 =>
          have h2 := ih (by simp)
          calc a :: b :: t3 = a :: (b :: t3) := rfl
            _ = a :: ((b :: t3).dropLast ++ [(b :: t3).getLastD ""]) := by rw [← h2]
            _ = (a :: b :: t3).dropLast ++ [(a :: b :: t3).getLastD ""] := by simp [List.dropLast]

theorem pathUnder_exists_append (q p : List String) (h : pathUnder q p = true) :
    ∃ r, p = q ++ r := by
  induction q generalizing p with
  | nil => exact ⟨p, rfl⟩
  | cons a q ih =>
      cases p with
      | nil => simp [pathUnder] at h
      | cons b p2 =>
          simp only [pathUnder, Bool.and_eq_true, beq_iff_eq] at h
          obtain ⟨hab, h2⟩ := h
          obtain ⟨r, hr⟩ := ih p2 h2
          exact ⟨r, by simp [hab, hr]⟩

theorem getNode_concat_lookup (q : List String) (n : String) (fs : FSNode) (m : Nat)
    (cs : List (String × FSNode)) (h : getNode q fs = some (FSNode.dir m cs)) :
    getNode (q ++ [n]) fs = lookupChild cs n := by
  rw [getNode_append, h]
  simp only [Option.some_bind]
  cases hl : lookupChild cs n with
  | none => simp [getNode, hl]
  | some child => simp [getNode, hl]

theorem getNode_concat_decomp (q : List String) (n : String) (fs : FSNode) (nd : FSNode)
    (h : getNode (q ++ [n]) fs = some nd) :
    ∃ m cs, getNode q fs = some (FSNode.dir m cs) ∧ lookupChild cs n = some nd := by
  rw [getNode_append] at h
  cases hg : getNode q fs with
  | none => rw [hg] at h; simp at h
  | some nd0 =>
      rw [hg] at h
      simp only [Option.some_bind] at h
      cases nd0 with
      | file c fm => simp [getNode] at h
      | symlink t => simp [getNode] at h
      | dir fm cs =>
          refine ⟨fm, cs, rfl, ?hfin⟩
          simp only [getNode] at h
          cases hl : lookupChild cs n with
          | none => simp [hl] at h
          | some child =>
              simp only [hl] at h
              exact h

theorem removePath_of_getNode_none (t : List String) (fs : FSNode)
    (hg : getNode t fs = none) : removePath t fs = fs := by
  unfold removePath
  rw [hg]

theorem removePath_eq_modify (t : List String) (fs : FSNode) (nd : FSNode)
    (ht : t ≠ []) (hg : getNode t fs = some nd) :
    removePath t fs = modifyChildren (fun cs => removeChild cs (t.getLastD "")) t.dropLast fs := by
  unfold removePath
  rw [hg]
  cases t with
  | nil => exact absurd rfl ht
  | cons a r => rfl

theorem removePath_child_step (q : List String) (k : String) (fs : FSNode) (m : Nat)
    (cs : List (String × FSNode)) (h : getNode q fs = some (FSNode.dir m cs)) :
    getNode q (removePath (q ++ [k]) fs) = some (FSNode.dir m (removeChild cs k)) := by
  cases hg : getNode (q ++ [k]) fs with
  | none =>
      rw [removePath_of_getNode_none _ _ hg]
      rw [getNode_concat_lookup q k fs m cs h] at hg
      rw [removeChild_lookup_none cs k hg]
      exact h
  | some nd =>
      rw [removePath_eq_modify (q ++ [k]) fs nd (by simp) hg]
      simp only [dropLast_concat_seg, getLastD_concat_seg]
      exact getNode_modifyChildren_at _ q fs m cs h

theorem removePath_removes (q : List String) (n : String) (fs : FSNode) (nd : FSNode)
    (h : getNode (q ++ [n]) fs = some nd) :
    getNode (q ++ [n]) (removePath (q ++ [n]) fs) = none := by
  obtain ⟨m, cs, hq, hl⟩ := getNode_concat_decomp q n fs nd h
  have hstep := removePath_child_step q n fs m cs hq
  rw [getNode_concat_lookup q n _ m (removeChild cs n) hstep]
  exact lookup_removeChild_self cs n

theorem removePath_preserves (t p : List String) (fs : FSNode)
    (hp : pathUnder t p = false) : preservedAt fs (removePath t fs) p := by
  cases hg : getNode t fs with
  | none =>
      rw [removePath_of_getNode_none _ _ hg]
      exact preservedAt_refl _ _
  | some nd =>
      cases t with
      | nil => exact preservedAt_refl fs p
      | cons a r =>
          set t := a :: r with htdef
          have htne : t ≠ [] := by rw [htdef]; simp
          rw [removePath_eq_modify t fs nd htne hg]
          have hdec := seg_concat_decomp t htne
          cases hu : pathUnder t.dropLast p with
          | false => exact preservedAt_modifyChildren _ t.dropLast p fs hu
          | true =>
              obtain ⟨p2, hp2⟩ := pathUnder_exists_append t.dropLast p hu
              have hgq : getNode (t.dropLast ++ [t.getLastD ""]) fs = some nd := by
                rw [← hdec]; exact hg
              obtain ⟨m, cs, hqdir, hlk⟩ := getNode_concat_decomp t.dropLast (t.getLastD "") fs nd hgq
              cases p2 with
              | nil =>
                  subst hp2
                  unfold preservedAt
                  rw [List.append_nil, hqdir,
                    getNode_modifyChildren_at _ t.dropLast fs m cs hqdir]
                  exact ⟨_, rfl⟩
              | cons k p3 =>
                  by_cases hk : k = t.getLastD ""
                  · subst hk
                    rw [hp2, List.append_cons, ← hdec, pathUnder_append] at hp
                    exact absurd hp (by simp)
                  · subst hp2
                    refine preservedAt_of_getNode_eq _ _ _ ?e4
                    rw [getNode_modifyChildren_below _ t.dropLast k p3 fs m cs hqdir]
                    rw [lookup_removeChild_ne cs (t.getLastD "") k hk]
                    rw [getNode_append, hqdir]
                    simp only [Option.some_bind, getNode]

theorem removePath_no_create (t p : List String) (fs : FSNode)
    (hp : getNode p fs = none) : getNode p (removePath t fs) = none := by
  cases hg : getNode t fs with
  | none =>
      rw [removePath_of_getNode_none _ _ hg]
      exact hp
  | some nd =>
      cases t with
      | nil => exact hp
      | cons a r =>
          set t := a :: r with htdef
          have htne : t ≠ [] := by rw [htdef]; simp
          rw [removePath_eq_modify t fs nd htne hg]
          have hdec := seg_concat_decomp t htne
          have hgq : getNode (t.dropLast ++ [t.getLastD ""]) fs = some nd := by
            rw [← hdec]; exact hg
          obtain ⟨m, cs, hqdir, hlk⟩ := getNode_concat_decomp t.dropLast (t.getLastD "") fs nd hgq
          cases hu : pathUnder t.dropLast p with
          | false =>
              cases hv : pathUnder p t.dropLast with
              | false =>
                  rw [getNode_modifyChildren_diverge _ t.dropLast p fs hu hv]
                  exact hp
              | true =>
                  obtain ⟨r2, hr2⟩ := pathUnder_exists_append p t.dropLast hv
                  rw [hr2, getNode_append, hp] at hqdir
                  simp at hqdir
          | true =>
              obtain ⟨p2, hp2⟩ := pathUnder_exists_append t.dropLast p hu
              cases p2 with
              | nil =>
                  subst hp2
                  rw [List.append_nil] at hp
                  rw [hp] at hqdir
                  simp at hqdir
              | cons k p3 =>
                  subst hp2
                  rw [getNode_modifyChildren_below _ t.dropLast k p3 fs m cs hqdir]
                  by_cases hk : k = t.getLastD ""
                  · subst hk
                    rw [lookup_removeChild_self cs (t.getLastD "")]
                  · rw [lookup_removeChild_ne cs (t.getLastD "") k hk]
                    rw [getNode_append, hqdir] at hp
                    simp only [Option.some_bind, getNode] at hp
                    cases hl : lookupChild cs k with
                    | none => rfl
                    | some child =>
                        rw [hl] at hp
                        simpa using hp

theorem fold_removePath_children (q : List String) (names : List String) (fs : FSNode)
    (m : Nat) (cs : List (String × FSNode)) (h : getNode q fs = some (FSNode.dir m cs)) :
    getNode q (names.foldl (fun acc k => removePath (q ++ [k]) acc) fs) =
      some (FSNode.dir m (names.foldl (fun acc k => removeChild acc k) cs)) := by
  induction names generalizing fs cs with
  | nil => simpa using h
  | cons k names ih =>
      simp only [List.foldl_cons]
      exact ih (removePath (q ++ [k]) fs) (removeChild cs k) (removePath_child_step q k fs m cs h)

theorem mem_removeChild (cs : List (String × FSNode)) (n : String) (e : String × FSNode)
    (h : e ∈ removeChild cs n) : e ∈ cs ∧ e.1 ≠ n := by
  induction cs with
  | nil => simp [removeChild] at h
  | cons f rest ih =>
      obtain ⟨m, w⟩ := f
      by_cases hm : m = n
      · simp only [removeChild, hm, if_true] at h
        obtain ⟨h1, h2⟩ := ih h
        exact ⟨by simp [h1], h2⟩
      · simp only [removeChild, hm, if_false, List.mem_cons] at h
        cases h with
        | inl he =>
            subst he
            exact ⟨by simp, hm⟩
        | inr he =>
            obtain ⟨h1, h2⟩ := ih he
            exact ⟨by simp [h1], h2⟩

theorem fold_removeChild_all (names : List String) (cs : List (String × FSNode))
    (h : ∀ e ∈ cs, e.1 ∈ names) :
    names.foldl (fun acc k => removeChild acc k) cs = [] := by
  induction names generalizing cs with
  | nil =>
      cases cs with
      | nil => rfl
      | cons e rest => exact absurd (h e (by simp)) (by simp)
  | cons k names ih =>
      simp only [List.foldl_cons]
      refine ih (removeChild cs k) ?hmem
      intro e he
      obtain ⟨h1, h2⟩ := mem_removeChild cs k e he
      have := h e h1
      simp only [List.mem_cons] at this
      cases this with
      | inl hx => exact absurd hx h2
      | inr hx => exact hx

theorem applyWhiteout_fst_of_marker (fs : FSNode) (rel : String)
    (h : strStartsWith (pyBasename rel) ".wh." = true) :
    (applyWhiteout fs rel).1 = true := by
  unfold applyWhiteout
  by_cases hopq : pyBasename rel = ".wh..wh..opq"
  · simp only [hopq, if_true]
    by_cases hd : isDirAt (toSegs (pyDirname rel)) fs = true <;> simp [hd]
  · simp only [hopq, if_false, h, if_true]
    by_cases hex : (existsAt (toSegs (pyJoin (pyDirname rel) (strDrop (pyBasename rel) 4))) fs ||
        isLinkAt (toSegs (pyJoin (pyDirname rel) (strDrop (pyBasename rel) 4))) fs) = true <;> simp [hex]

theorem applyWhiteout_no_create (fs : FSNode) (rel : String) (t : List String)
    (h : getNode t fs = none) : getNode t ((applyWhiteout fs rel).2) = none := by
  unfold applyWhiteout
  by_cases hopq : pyBasename rel = ".wh..wh..opq"
  · simp only [hopq, if_true]
    by_cases hd : isDirAt (toSegs (pyDirname rel)) fs = true
    · simp only [hd, if_true]
      generalize listdirAt (toSegs (pyDirname rel)) fs = names
      generalize toSegs (pyDirname rel) = q
      clear hd
      induction names generalizing fs with
      | nil => simpa using h
      | cons k names ih =>
          simp only [List.foldl_cons]
          exact ih (removePath (q ++ [k]) fs) (removePath_no_create (q ++ [k]) t fs h)
    · simp only [Bool.not_eq_true] at hd
      simp [hd, h]
  · simp only [hopq, if_false]
    by_cases hwh : strStartsWith (pyBasename rel) ".wh." = true
    · simp only [hwh, if_true]
      by_cases hex : (existsAt (toSegs (pyJoin (pyDirname rel) (strDrop (pyBasename rel) 4))) fs ||
          isLinkAt (toSegs (pyJoin (pyDirname rel) (strDrop (pyBasename rel) 4))) fs) = true
      · simp only [hex, if_true]
        exact removePath_no_create _ t fs h
      · simp only [Bool.not_eq_true] at hex
        simp [hex, h]
    · simp only [Bool.not_eq_true] at hwh
      simp [hwh, h]

theorem unlinkChild_local : ∀ cs n cs2, unlinkChild cs n = Except.ok cs2 →
    ∀ k, k ≠ n → lookupChild cs2 k = lookupChild cs k := by
  intro cs n cs2 hok k hk
  unfold unlinkChild at hok
  cases hl : lookupChild cs n with
  | none => rw [hl] at hok; exact absurd hok (by simp)
  | some nd =>
      rw [hl] at hok
      cases nd with
      | dir m cs3 => exact absurd hok (by simp)
      | file c m =>
          simp only [Except.ok.injEq] at hok
          subst hok
          exact lookup_removeChild_ne cs n k hk
      | symlink t =>
          simp only [Except.ok.injEq] at hok
          subst hok
          exact lookup_removeChild_ne cs n k hk

theorem symlinkChild_local (target : String) : ∀ cs n cs2,
    symlinkChild target cs n = Except.ok cs2 →
    ∀ k, k ≠ n → lookupChild cs2 k = lookupChild cs k := by
  intro cs n cs2 hok k hk
  unfold symlinkChild at hok
  cases hl : lookupChild cs n with
  | some nd => rw [hl] at hok; exact absurd hok (by simp)
  | none =>
      rw [hl] at hok
      simp only [Except.ok.injEq] at hok
      subst hok
      exact lookup_setChild_ne cs n k _ hk

theorem openWriteChild_local (content : String) : ∀ cs n cs2,
    openWriteChild content cs n = Except.ok cs2 →
    ∀ k, k ≠ n → lookupChild cs2 k = lookupChild cs k := by
  intro cs n cs2 hok k hk
  unfold openWriteChild at hok
  cases hl : lookupChild cs n with
  | none =>
      rw [hl] at hok
      simp only [Except.ok.injEq] at hok
      subst hok
      exact lookup_setChild_ne cs n k _ hk
  | some nd =>
      rw [hl] at hok
      cases nd with
      | file c m =>
          simp only [Except.ok.injEq] at hok
          subst hok
          exact lookup_setChild_ne cs n k _ hk
      | dir m cs3 => exact absurd hok (by simp)
      | symlink t => exact absurd hok (by simp)

theorem chmodChild_local (mode : Nat) : ∀ cs n cs2,
    chmodChild mode cs n = Except.ok cs2 →
    ∀ k, k ≠ n → lookupChild cs2 k = lookupChild cs k := by
  intro cs n cs2 hok k hk
  unfold chmodChild at hok
  cases hl : lookupChild cs n with
  | none => rw [hl] at hok; exact absurd hok (by simp)
  | some nd =>
      rw [hl] at hok
      cases nd with
      | file c m =>
          simp only [Except.ok.injEq] at hok
          subst hok
          exact lookup_setChild_ne cs n k _ hk
      | dir m cs3 =>
          simp only [Except.ok.injEq] at hok
          subst hok
          exact lookup_setChild_ne cs n k _ hk
      | symlink t => exact absurd hok (by simp)

theorem unlinkAt_frame (t p : List String) (fs fs2 : FSNode)
    (h : unlinkAt t fs = Except.ok fs2) (hp : pathUnder t p = false) :
    preservedAt fs fs2 p :=
  childOp_frame unlinkChild unlinkChild_local t p fs fs2 h hp

theorem symlinkAt_frame (t p : List String) (target : String) (fs fs2 : FSNode)
    (h : symlinkAt t target fs = Except.ok fs2) (hp : pathUnder t p = false) :
    preservedAt fs fs2 p :=
  childOp_frame (symlinkChild target) (symlinkChild_local target) t p fs fs2 h hp

theorem openWriteAt_frame (t p : List String) (content : String) (fs fs2 : FSNode)
    (h : openWriteAt t content fs = Except.ok fs2) (hp : pathUnder t p = false) :
    preservedAt fs fs2 p :=
  childOp_frame (openWriteChild content) (openWriteChild_local content) t p fs fs2 h hp

theorem chmodAt_frame (t p : List String) (mode : Nat) (fs fs2 : FSNode)
    (h : chmodAt t mode fs = Except.ok fs2) (hp : pathUnder t p = false) :
    preservedAt fs fs2 p :=
  childOp_frame (chmodChild mode) (chmodChild_local mode) t p fs fs2 h hp

theorem linkAt_frame (src dst p : List String) (fs fs2 : FSNode)
    (h : linkAt src dst fs = Except.ok fs2) (hp : pathUnder dst p = false) :
    preservedAt fs fs2 p := by
  unfold linkAt at h
  cases hg : getNode src fs with
  | none => rw [hg] at h; exact absurd h (by simp)
  | some nd =>
      rw [hg] at h
      cases nd with
      | file c m =>
          refine childOp_frame _ ?hloc dst p fs fs2 h hp
          intro cs n cs2 hok k hk
          cases hl : lookupChild cs n with
          | some x => rw [hl] at hok; exact absurd hok (by simp)
          | none =>
              rw [hl] at hok
              simp only [Except.ok.injEq] at hok
              subst hok
              exact lookup_setChild_ne cs n k _ hk
      | dir m cs3 => exact absurd h (by simp)
      | symlink tl => exact absurd h (by simp)

theorem overlayExtractMember_frame (relpath : String) (e : Entry) (fs fs2 : FSNode)
    (dirPerms perms2 : List (String × Nat)) (p : List String)
    (h : overlayExtractMember relpath e fs dirPerms = Except.ok (fs2, perms2))
    (hp : pathUnder (toSegs relpath) p = false) :
    preservedAt fs fs2 p ∧ ∀ d ∈ perms2, d ∈ dirPerms ∨ d.1 = relpath := by
  cases hk : e.kind with
  | directory =>
      simp only [overlayExtractMember, hk] at h
      cases hmk : makedirs (toSegs relpath) fs with
      | error err => rw [hmk] at h; exact absurd h (by simp)
      | ok dest2 =>
          rw [hmk] at h
          simp only [Except.ok.injEq, Prod.mk.injEq] at h
          obtain ⟨h1, h2⟩ := h
          subst h1
          subst h2
          refine ⟨makedirs_preserves _ fs _ hmk p, ?hperm⟩
          intro d hd
          simp only [List.mem_append, List.mem_singleton] at hd
          cases hd with
          | inl hx => exact Or.inl hx
          | inr hx => exact Or.inr (by rw [hx])
  | symlink linkname =>
      simp only [overlayExtractMember, hk, ensureParent] at h
      cases hmk : makedirs (toSegs relpath).dropLast fs with
      | error err => rw [hmk] at h; exact absurd h (by simp)
      | ok dest1 =>
          rw [hmk] at h
          dsimp only at h
          have hpre1 : preservedAt fs dest1 p := makedirs_preserves _ fs dest1 hmk p
          cases hun : (if lexistsAt (toSegs relpath) dest1 then unlinkAt (toSegs relpath) dest1
              else Except.ok dest1) with
          | error err => rw [hun] at h; exact absurd h (by simp)
          | ok dest2 =>
              rw [hun] at h
              dsimp only at h
              cases hsy : symlinkAt (toSegs relpath) linkname dest2 with
              | error err => rw [hsy] at h; exact absurd h (by simp)
              | ok dest3 =>
                  rw [hsy] at h
                  simp only [Except.ok.injEq, Prod.mk.injEq] at h
                  obtain ⟨h1, h2⟩ := h
                  subst h1
                  subst h2
                  have hpre2 : preservedAt dest1 dest2 p := by
                    by_cases hle : lexistsAt (toSegs relpath) dest1 = true
                    · rw [if_pos hle] at hun
                      exact unlinkAt_frame _ p dest1 dest2 hun hp
                    · rw [if_neg hle] at hun
                      simp only [Except.ok.injEq] at hun
                      subst hun
                      exact preservedAt_refl _ _
                  have hpre3 : preservedAt dest2 dest3 p :=
                    symlinkAt_frame _ p linkname dest2 dest3 hsy hp
                  exact ⟨preservedAt_trans _ _ _ p (preservedAt_trans _ _ _ p hpre1 hpre2) hpre3,
                    fun d hd => Or.inl hd⟩
  | regular content =>
      simp only [overlayExtractMember, hk, ensureParent] at h
      cases hmk : makedirs (toSegs relpath).dropLast fs with
      | error err => rw [hmk] at h; exact absurd h (by simp)
      | ok dest1 =>
          rw [hmk] at h
          dsimp only at h
          cases hwr : openWriteAt (toSegs relpath) content dest1 with
          | error err => rw [hwr] at h; exact absurd h (by simp)
          | ok dest2 =>
              rw [hwr] at h
              dsimp only at h
              cases hch : chmodAt (toSegs relpath) (e.mode &&& 0o777) dest2 with
              | error err => rw [hch] at h; exact absurd h (by simp)
              | ok dest3 =>
                  rw [hch] at h
                  simp only [Except.ok.injEq, Prod.mk.injEq] at h
                  obtain ⟨h1, h2⟩ := h
                  subst h1
                  subst h2
                  have hpre1 : preservedAt fs dest1 p := makedirs_preserves _ fs dest1 hmk p
                  have hpre2 : preservedAt dest1 dest2 p :=
                    openWriteAt_frame _ p content dest1 dest2 hwr hp
                  have hpre3 : preservedAt dest2 dest3 p :=
                    chmodAt_frame _ p _ dest2 dest3 hch hp
                  exact ⟨preservedAt_trans _ _ _ p (preservedAt_trans _ _ _ p hpre1 hpre2) hpre3,
                    fun d hd => Or.inl hd⟩
  | hardlink linkname =>
      simp only [overlayExtractMember, hk] at h
      simp only [Except.ok.injEq, Prod.mk.injEq] at h
      obtain ⟨h1, h2⟩ := h
      subst h1
      subst h2
      exact ⟨preservedAt_refl _ _, fun d hd => Or.inl hd⟩
  | other =>
      simp only [overlayExtractMember, hk] at h
      simp only [Except.ok.injEq, Prod.mk.injEq] at h
      obtain ⟨h1, h2⟩ := h
      subst h1
      subst h2
      exact ⟨preservedAt_refl _ _, fun d hd => Or.inl hd⟩

theorem overlayProcessMember_frame (st st2 : LayerState) (e : Entry) (p : List String)
    (h : overlayProcessMember st e = Except.ok st2) (ht : touchesPath e p = false) :
    preservedAt st.fs st2.fs p ∧
      (∀ l ∈ st2.pendingLinks, l ∈ st.pendingLinks ∨ pathUnder (toSegs l.2) p = false) ∧
      (∀ d ∈ st2.dirPerms, d ∈ st.dirPerms ∨ pathUnder (toSegs d.1) p = false) := by
  by_cases hsup : isSupportedKind e.kind = true
  · unfold overlayProcessMember at h
    rw [if_pos hsup] at h
    unfold touchesPath at ht
    rw [hsup] at ht
    simp only [Bool.true_and] at ht
    cases hn : normalizeMemberName e.name with
    | error err => rw [hn] at h; exact absurd h (by simp)
    | ok o =>
        cases o with
        | none =>
            rw [hn] at h
            simp only [Except.ok.injEq] at h
            subst h
            exact ⟨preservedAt_refl _ _, fun l hl => Or.inl hl, fun d hd => Or.inl hd⟩
        | some r =>
            rw [hn] at h
            rw [hn] at ht
            dsimp only at h
            cases hk : e.kind with
            | hardlink linkname =>
                rw [hk] at h
                dsimp only at h
                cases hln : normalizeMemberName linkname with
                | error err => rw [hln] at h; exact absurd h (by simp)
                | ok o2 =>
                    cases o2 with
                    | none =>
                        rw [hln] at h
                        simp only [Except.ok.injEq] at h
                        subst h
                        exact ⟨preservedAt_refl _ _, fun l hl => Or.inl hl, fun d hd => Or.inl hd⟩
                    | some lt =>
                        rw [hln] at h
                        simp only [Except.ok.injEq] at h
                        subst h
                        refine ⟨preservedAt_refl _ _, ?hlinks, fun d hd => Or.inl hd⟩
                        intro l hl
                        simp only [List.mem_append, List.mem_singleton] at hl
                        cases hl with
                        | inl hx => exact Or.inl hx
                        | inr hx =>
                            subst hx
                            exact Or.inr ht
            | regular content =>
                rw [hk] at h
                dsimp only at h
                cases hm : overlayExtractMember r e st.fs st.dirPerms with
                | error err => rw [hm] at h; exact absurd h (by simp)
                | ok pr =>
                    obtain ⟨fs2, perms2⟩ := pr
                    rw [hm] at h
                    simp only [Except.ok.injEq] at h
                    subst h
                    obtain ⟨hpre, hperm⟩ := overlayExtractMember_frame r e st.fs fs2 st.dirPerms perms2 p hm ht
                    refine ⟨hpre, fun l hl => Or.inl hl, ?hp2⟩
                    intro d hd
                    cases hperm d hd with
                    | inl hx => exact Or.inl hx
                    | inr hx => exact Or.inr (by rw [hx]; exact ht)
            | directory =>
                rw [hk] at h
                dsimp only at h
                cases hm : overlayExtractMember r e st.fs st.dirPerms with
                | error err => rw [hm] at h; exact absurd h (by simp)
                | ok pr =>
                    obtain ⟨fs2, perms2⟩ := pr
                    rw [hm] at h
                    simp only [Except.ok.injEq] at h
                    subst h
                    obtain ⟨hpre, hperm⟩ := overlayExtractMember_frame r e st.fs fs2 st.dirPerms perms2 p hm ht
                    refine ⟨hpre, fun l hl => Or.inl hl, ?hp3⟩
                    intro d hd
                    cases hperm d hd with
                    | inl hx => exact Or.inl hx
                    | inr hx => exact Or.inr (by rw [hx]; exact ht)
            | symlink linkname =>
                rw [hk] at h
                dsimp only at h
                cases hm : overlayExtractMember r e st.fs st.dirPerms with
                | error err => rw [hm] at h; exact absurd h (by simp)
                | ok pr =>
                    obtain ⟨fs2, perms2⟩ := pr
                    rw [hm] at h
                    simp only [Except.ok.injEq] at h
                    subst h
                    obtain ⟨hpre, hperm⟩ := overlayExtractMember_frame r e st.fs fs2 st.dirPerms perms2 p hm ht
                    refine ⟨hpre, fun l hl => Or.inl hl, ?hp4⟩
                    intro d hd
                    cases hperm d hd with
                    | inl hx => exact Or.inl hx
                    | inr hx => exact Or.inr (by rw [hx]; exact ht)
            | other =>
                rw [hk] at hsup
                simp [isSupportedKind] at hsup
  · unfold overlayProcessMember at h
    rw [if_neg hsup] at h
    simp only [Except.ok.injEq] at h
    subst h
    exact ⟨preservedAt_refl _ _, fun l hl => Or.inl hl, fun d hd => Or.inl hd⟩

theorem runOverlayMembers_frame (es : List Entry) (st st2 : LayerState) (p : List String)
    (h : runOverlayMembers st es = Except.ok st2)
    (hsafe : ∀ e ∈ es, touchesPath e p = false)
    (hlinks : ∀ l ∈ st.pendingLinks, pathUnder (toSegs l.2) p = false)
    (hperms : ∀ d ∈ st.dirPerms, pathUnder (toSegs d.1) p = false) :
    preservedAt st.fs st2.fs p ∧
      (∀ l ∈ st2.pendingLinks, pathUnder (toSegs l.2) p = false) ∧
      (∀ d ∈ st2.dirPerms, pathUnder (toSegs d.1) p = false) := by
  induction es generalizing st with
  | nil =>
      simp only [runOverlayMembers, Except.ok.injEq] at h
      subst h
      exact ⟨preservedAt_refl _ _, hlinks, hperms⟩
  | cons e es ih =>
      simp only [runOverlayMembers] at h
      cases hone : overlayProcessMember st e with
      | error err => rw [hone] at h; exact absurd h (by simp)
      | ok st1 =>
          rw [hone] at h
          obtain ⟨hpre1, hl1, hd1⟩ := overlayProcessMember_frame st st1 e p hone
            (hsafe e (by simp))
          have hlinks1 : ∀ l ∈ st1.pendingLinks, pathUnder (toSegs l.2) p = false := by
            intro l hl
            cases hl1 l hl with
            | inl hx => exact hlinks l hx
            | inr hx => exact hx
          have hperms1 : ∀ d ∈ st1.dirPerms, pathUnder (toSegs d.1) p = false := by
            intro d hd
            cases hd1 d hd with
            | inl hx => exact hperms d hx
            | inr hx => exact hx
          obtain ⟨hpre2, hl2, hd2⟩ := ih st1 h (fun e2 he2 => hsafe e2 (by simp [he2]))
            hlinks1 hperms1
          exact ⟨preservedAt_trans _ _ _ p hpre1 hpre2, hl2, hd2⟩

theorem applyHardlinks_frame (links : List (String × String)) (fs fs2 : FSNode) (p : List String)
    (h : applyHardlinks fs links = Except.ok fs2)
    (hsafe : ∀ l ∈ links, pathUnder (toSegs l.2) p = false) : preservedAt fs fs2 p := by
  induction links generalizing fs with
  | nil =>
      simp only [applyHardlinks, Except.ok.injEq] at h
      subst h
      exact preservedAt_refl _ _
  | cons l rest ih =>
      obtain ⟨sourceRel, destRel⟩ := l
      have hd : pathUnder (toSegs destRel) p = false := hsafe (sourceRel, destRel) (by simp)
      simp only [applyHardlinks] at h
      by_cases hex : existsAt (toSegs sourceRel) fs = true
      · rw [if_pos hex] at h
        cases hmk : makedirs (toSegs destRel).dropLast fs with
        | error err => rw [hmk] at h; exact absurd h (by simp)
        | ok fs1 =>
            rw [hmk] at h
            dsimp only at h
            cases hun : (if lexistsAt (toSegs destRel) fs1 then unlinkAt (toSegs destRel) fs1
                else Except.ok fs1) with
            | error err => rw [hun] at h; exact absurd h (by simp)
            | ok fsu =>
                rw [hun] at h
                dsimp only at h
                cases hln : linkAt (toSegs sourceRel) (toSegs destRel) fsu with
                | error err => rw [hln] at h; exact absurd h (by simp)
                | ok fs3 =>
                    rw [hln] at h
                    have hpre1 : preservedAt fs fs1 p := makedirs_preserves _ fs fs1 hmk p
                    have hpre2 : preservedAt fs1 fsu p := by
                      by_cases hle : lexistsAt (toSegs destRel) fs1 = true
                      · rw [if_pos hle] at hun
                        exact unlinkAt_frame _ p fs1 fsu hun hd
                      · rw [if_neg hle] at hun
                        simp only [Except.ok.injEq] at hun
                        subst hun
                        exact preservedAt_refl _ _
                    have hpre3 : preservedAt fsu fs3 p := linkAt_frame _ _ p fsu fs3 hln hd
                    have hpre4 : preservedAt fs3 fs2 p :=
                      ih fs3 h (fun l2 hl2 => hsafe l2 (by simp [hl2]))
                    exact preservedAt_trans _ _ _ p
                      (preservedAt_trans _ _ _ p (preservedAt_trans _ _ _ p hpre1 hpre2) hpre3) hpre4
      · rw [if_neg hex] at h
        exact ih fs h (fun l2 hl2 => hsafe l2 (by simp [hl2]))

theorem applyDirPerms_frame (perms : List (String × Nat)) (fs fs2 : FSNode) (p : List String)
    (h : applyDirPerms fs perms = Except.ok fs2)
    (hsafe : ∀ d ∈ perms, pathUnder (toSegs d.1) p = false) : preservedAt fs fs2 p := by
  induction perms generalizing fs with
  | nil =>
      simp only [applyDirPerms, Except.ok.injEq] at h
      subst h
      exact preservedAt_refl _ _
  | cons d rest ih =>
      obtain ⟨dpath, dmode⟩ := d
      have hd : pathUnder (toSegs dpath) p = false := hsafe (dpath, dmode) (by simp)
      simp only [applyDirPerms] at h
      by_cases hex : existsAt (toSegs dpath) fs = true
      · rw [if_pos hex] at h
        cases hch : chmodAt (toSegs dpath) dmode fs with
        | error err => rw [hch] at h; exact absurd h (by simp)
        | ok fs1 =>
            rw [hch] at h
            have hpre1 : preservedAt fs fs1 p := chmodAt_frame _ p dmode fs fs1 hch hd
            have hpre2 : preservedAt fs1 fs2 p :=
              ih fs1 h (fun d2 hd2 => hsafe d2 (by simp [hd2]))
            exact preservedAt_trans _ _ _ p hpre1 hpre2
      · rw [if_neg hex] at h
        exact ih fs h (fun d2 hd2 => hsafe d2 (by simp [hd2]))

theorem extractTarStream_frame (fs fs2 : FSNode) (entries : List Entry) (p : List String)
    (h : extractTarStream fs entries = Except.ok fs2)
    (hsafe : ∀ e ∈ entries, touchesPath e p = false) : preservedAt fs fs2 p := by
  unfold extractTarStream at h
  cases hrun : runOverlayMembers { fs := fs, pendingLinks := [], dirPerms := [] } entries with
  | error err => rw [hrun] at h; exact absurd h (by simp)
  | ok st =>
      rw [hrun] at h
      dsimp only at h
      obtain ⟨hpre1, hl, hd⟩ := runOverlayMembers_frame entries _ st p hrun hsafe
        (by intro l hl; simp at hl) (by intro d hd; simp at hd)
      cases hhl : applyHardlinks st.fs st.pendingLinks with
      | error err => rw [hhl] at h; exact absurd h (by simp)
      | ok fsl =>
          rw [hhl] at h
          have hpre2 : preservedAt st.fs fsl p := applyHardlinks_frame st.pendingLinks st.fs fsl p hhl hl
          have hpre3 : preservedAt fsl fs2 p := applyDirPerms_frame st.dirPerms fsl fs2 p h hd
          exact preservedAt_trans _ _ _ p (preservedAt_trans _ _ _ p hpre1 hpre2) hpre3

/-- C1, counterexample: an entry named "../../etc/passwd" does not abort the
extraction with a path-traversal error; str.lstrip("./") removes the leading
"../../" character by character, the member is silently rewritten to
"etc/passwd", and the layer pass completes successfully writing the file
inside the destination root. -/
theorem c1_traversal_counterexample :
    normalizeMemberName "../../etc/passwd" = Except.ok (some "etc/passwd") ∧
      extractLayer emptyRoot
        [{ name := "../../etc/passwd", kind := EntryKind.regular "x", mode := 0o644 }] =
      Except.ok (FSNode.dir 0o777
        [("etc", FSNode.dir 0o777 [("passwd", FSNode.file "x" 0o644)])]) := by
  exact ⟨rfl, rfl⟩

/-- C1, amended: only a raw name whose form after stripping every leading '.'
and '/' character lexically normalizes to a path beginning with "../" makes
the merge fail with the path-traversal error; and every member name the
normalizer accepts is a destination-relative path not beginning with "../".
A name such as "../../etc/passwd" is instead silently clamped into the
destination root. -/
theorem c1_amended_traversal (name : String) :
    (strStartsWith (pyNormpath (lstripDotSlash name)) "../" = true →
      normalizeMemberName name = Except.error (ExtractErr.pathTraversal name)) ∧
    (∀ r, normalizeMemberName name = Except.ok (some r) → strStartsWith r "../" = false) := by
  constructor
  · intro hst
    unfold normalizeMemberName
    by_cases hs : lstripDotSlash name = ""
    · rw [hs] at hst
      exact absurd hst (by decide)
    · rw [if_neg hs]
      by_cases h1 : pyNormpath (lstripDotSlash name) = "" ∨ pyNormpath (lstripDotSlash name) = "."
      · cases h1 with
        | inl hx => rw [hx] at hst; exact absurd hst (by decide)
        | inr hx => rw [hx] at hst; exact absurd hst (by decide)
      · rw [if_neg h1, if_pos hst]
  · intro r hr
    unfold normalizeMemberName at hr
    by_cases hs : lstripDotSlash name = ""
    · rw [if_pos hs] at hr
      exact absurd hr (by simp)
    · rw [if_neg hs] at hr
      by_cases h1 : pyNormpath (lstripDotSlash name) = "" ∨ pyNormpath (lstripDotSlash name) = "."
      · rw [if_pos h1] at hr
        exact absurd hr (by simp)
      · rw [if_neg h1] at hr
        by_cases hb : strStartsWith (pyNormpath (lstripDotSlash name)) "../" = true
        · rw [if_pos hb] at hr
          exact absurd hr (by simp)
        · rw [if_neg hb] at hr
          simp only [Except.ok.injEq, Option.some.injEq] at hr
          rw [← hr]
          simp only [Bool.not_eq_true] at hb
          exact hb

/-- Witness for the amended C1 theorem at concrete inputs: "a/../../b"
strips to itself, normalizes to "../b" and is rejected; "usr/bin/python"
is accepted and does not begin with "../". -/
theorem c1_amended_traversal_witness :
    normalizeMemberName "a/../../b" = Except.error (ExtractErr.pathTraversal "a/../../b") ∧
      strStartsWith "usr/bin/python" "../" = false := by
  constructor
  · exact (c1_amended_traversal "a/../../b").1 (by decide)
  · exact (c1_amended_traversal "usr/bin/python").2 "usr/bin/python" (by rfl)

/-- C2, counterexample: extract_rootfs.main does not merge into an existing
destination; it removes it (_safe_rmtree) and recreates it empty, so a
pre-existing file "keep" that no layer entry or whiteout names is gone after
a run over an empty layer. -/
theorem c2_wipe_counterexample :
    extractRootfsMain (some (FSNode.dir 0o755 [("keep", FSNode.file "k" 0o644)])) [] =
      Except.ok (FSNode.dir 0o777 []) ∧
    getNode ["keep"] (FSNode.dir 0o777 []) = none := by
  exact ⟨rfl, rfl⟩

/-- C2, amended: the Debian-overlay entrypoint (the one that requires the
destination root to exist and merges into it) preserves every pre-existing
object whose path no entry of the selected data.tar payload names: files
keep content and mode, symlinks keep their target, directories remain with
their mode.  extract_rootfs.main instead clears the destination first, so
nothing pre-existing survives there (see the counterexample). -/
theorem c2_amended_overlay_frame (fs fs2 : FSNode) (ms : List ArMember) (codec : Codec)
    (entries : List Entry) (p : List String)
    (hrun : applyDebPackage fs ms = Except.ok fs2)
    (hsel : findDataMember ms = Except.ok (codec, entries))
    (hsafe : ∀ e ∈ entries, touchesPath e p = false) :
    preservedAt fs fs2 p := by
  unfold applyDebPackage at hrun
  rw [hsel] at hrun
  dsimp only at hrun
  exact extractTarStream_frame fs fs2 entries p hrun hsafe

/-- Witness for the amended C2 theorem: overlaying a one-file data.tar
payload onto a rootfs containing "keep" leaves "keep" untouched. -/
theorem c2_amended_overlay_frame_witness :
    preservedAt (FSNode.dir 0o755 [("keep", FSNode.file "k" 0o644)])
      (FSNode.dir 0o755 [("keep", FSNode.file "k" 0o644), ("other", FSNode.file "x" 0o644)])
      ["keep"] := by
  exact c2_amended_overlay_frame
    (FSNode.dir 0o755 [("keep", FSNode.file "k" 0o644)])
    (FSNode.dir 0o755 [("keep", FSNode.file "k" 0o644), ("other", FSNode.file "x" 0o644)])
    [{ name := "data.tar", data := [{ name := "other", kind := EntryKind.regular "x", mode := 0o644 }] }]
    Codec.plain
    [{ name := "other", kind := EntryKind.regular "x", mode := 0o644 }]
    ["keep"]
    (by rfl) (by rfl) (by decide)

/-- C3, counterexample: a top-level entry whose raw base name is ".wh.foo"
is not classified as a whiteout: str.lstrip("./") strips its leading dot
before whiteout detection, the normalized name becomes "wh.foo", and the
entry is materialized as an ordinary file of that name. -/
theorem c3_toplevel_whiteout_counterexample :
    normalizeMemberName ".wh.foo" = Except.ok (some "wh.foo") ∧
      extractLayer emptyRoot
        [{ name := ".wh.foo", kind := EntryKind.regular "x", mode := 0o644 }] =
      Except.ok (FSNode.dir 0o777 [("wh.foo", FSNode.file "x" 0o644)]) := by
  exact ⟨rfl, rfl⟩

/-- C3, amended: whiteout classification happens on the normalized member
path; every supported entry whose normalized path has a base name beginning
with ".wh." is consumed as a whiteout directive — the layer state keeps the
whiteout-updated tree, the buffers are untouched, and the marker path itself
is never created (whiteout application only removes nodes).  Entries located
directly at the destination root lose their leading dots to the
character-set strip and are treated as ordinary entries under the mangled
name (see the counterexample). -/
theorem c3_amended_whiteout_consumed (st : LayerState) (e : Entry) (relpath : String)
    (hsup : isSupportedKind e.kind = true)
    (hn : normalizeMemberName e.name = Except.ok (some relpath))
    (hwh : strStartsWith (pyBasename relpath) ".wh." = true) :
    processMember st e = Except.ok { st with fs := (applyWhiteout st.fs relpath).2 } ∧
      (applyWhiteout st.fs relpath).1 = true ∧
      (lexistsAt (toSegs relpath) st.fs = false →
        lexistsAt (toSegs relpath) ((applyWhiteout st.fs relpath).2) = false) := by
  have hcons := applyWhiteout_fst_of_marker st.fs relpath hwh
  refine ⟨?hpm, hcons, ?hnc⟩
  · unfold processMember
    rw [if_pos hsup, hn]
    dsimp only
    rw [if_pos hcons]
  · intro hne
    unfold lexistsAt at hne ⊢
    cases hg : getNode (toSegs relpath) st.fs with
    | some nd => rw [hg] at hne; simp at hne
    | none => rw [applyWhiteout_no_create st.fs relpath (toSegs relpath) hg]; rfl

/-- Witness for the amended C3 theorem: a nested marker "dir/.wh.foo" is
consumed against a tree holding "dir/foo", and the marker path "dir/.wh.foo"
is not created. -/
theorem c3_amended_whiteout_consumed_witness :
    processMember
      { fs := FSNode.dir 0o777 [("dir", FSNode.dir 0o755 [("foo", FSNode.file "old" 0o644)])],
        pendingLinks := [], dirPerms := [] }
      { name := "dir/.wh.foo", kind := EntryKind.regular "", mode := 0o644 } =
      Except.ok
        { fs := (applyWhiteout
            (FSNode.dir 0o777 [("dir", FSNode.dir 0o755 [("foo", FSNode.file "old" 0o644)])])
            "dir/.wh.foo").2,
          pendingLinks := [], dirPerms := [] } := by
  exact (c3_amended_whiteout_consumed
    { fs := FSNode.dir 0o777 [("dir", FSNode.dir 0o755 [("foo", FSNode.file "old" 0o644)])],
      pendingLinks := [], dirPerms := [] }
    { name := "dir/.wh.foo", kind := EntryKind.regular "", mode := 0o644 }
    "dir/.wh.foo" (by rfl) (by rfl) (by rfl)).1

/-- C4: whiteout application semantics.  An Opaque marker whose parent
directory exists clears every direct child and keeps the directory (with its
mode); an Explicit marker whose stripped target exists removes the target
node with its whole subtree; both directives are consumed no-ops when the
target does not exist, leaving the tree unchanged. -/
theorem c4_whiteout_apply (fs : FSNode) (rel : String) :
    (pyBasename rel = ".wh..wh..opq" →
      ∀ m cs, getNode (toSegs (pyDirname rel)) fs = some (FSNode.dir m cs) →
        (applyWhiteout fs rel).1 = true ∧
        getNode (toSegs (pyDirname rel)) ((applyWhiteout fs rel).2) =
          some (FSNode.dir m [])) ∧
    (pyBasename rel ≠ ".wh..wh..opq" → strStartsWith (pyBasename rel) ".wh." = true →
      toSegs (pyJoin (pyDirname rel) (strDrop (pyBasename rel) 4)) ≠ [] →
      ∀ nd, getNode (toSegs (pyJoin (pyDirname rel) (strDrop (pyBasename rel) 4))) fs = some nd →
        (applyWhiteout fs rel).1 = true ∧
        getNode (toSegs (pyJoin (pyDirname rel) (strDrop (pyBasename rel) 4)))
          ((applyWhiteout fs rel).2) = none) ∧
    (pyBasename rel = ".wh..wh..opq" → isDirAt (toSegs (pyDirname rel)) fs = false →
      applyWhiteout fs rel = (true, fs)) ∧
    (pyBasename rel ≠ ".wh..wh..opq" → strStartsWith (pyBasename rel) ".wh." = true →
      getNode (toSegs (pyJoin (pyDirname rel) (strDrop (pyBasename rel) 4))) fs = none →
      applyWhiteout fs rel = (true, fs)) := by
  refine ⟨?opq, ?expl, ?opqAbsent, ?explAbsent⟩
  · intro hb m cs hdir
    have hisdir : isDirAt (toSegs (pyDirname rel)) fs = true := by
      unfold isDirAt
      rw [hdir]
    have hld : listdirAt (toSegs (pyDirname rel)) fs = cs.map (fun e => e.1) := by
      unfold listdirAt
      rw [hdir]
    unfold applyWhiteout
    rw [if_pos hb, if_pos hisdir, hld]
    refine ⟨rfl, ?hcleared⟩
    rw [fold_removePath_children (toSegs (pyDirname rel)) (cs.map (fun e => e.1)) fs m cs hdir]
    rw [fold_removeChild_all (cs.map (fun e => e.1)) cs
      (fun e he => List.mem_map_of_mem _ he)]
  · intro hb hwh htne nd hex
    have hguard : (existsAt (toSegs (pyJoin (pyDirname rel) (strDrop (pyBasename rel) 4))) fs ||
        isLinkAt (toSegs (pyJoin (pyDirname rel) (strDrop (pyBasename rel) 4))) fs) = true := by
      cases nd with
      | file c m => simp [existsAt, isFileAt, isDirAt, isLinkAt, hex]
      | dir m cs => simp [existsAt, isFileAt, isDirAt, isLinkAt, hex]
      | symlink t => simp [existsAt, isFileAt, isDirAt, isLinkAt, hex]
    unfold applyWhiteout
    rw [if_neg hb, if_pos hwh, if_pos hguard]
    refine ⟨rfl, ?hremoved⟩
    have hdec := seg_concat_decomp (toSegs (pyJoin (pyDirname rel) (strDrop (pyBasename rel) 4))) htne
    rw [hdec] at hex ⊢
    exact removePath_removes _ _ fs nd hex
  · intro hb hnd
    unfold applyWhiteout
    rw [if_pos hb, if_neg (by rw [hnd]; exact Bool.false_ne_true)]
  · intro hb hwh hnone
    have hguard : (existsAt (toSegs (pyJoin (pyDirname rel) (strDrop (pyBasename rel) 4))) fs ||
        isLinkAt (toSegs (pyJoin (pyDirname rel) (strDrop (pyBasename rel) 4))) fs) = false := by
      simp [existsAt, isFileAt, isDirAt, isLinkAt, hnone]
    unfold applyWhiteout
    rw [if_neg hb, if_pos hwh, if_neg (by rw [hguard]; exact Bool.false_ne_true)]

/-- Witness for C4: an opaque marker "d/.wh..wh..opq" empties the existing
directory "d" while keeping it; an explicit marker "d/.wh.a" removes the
existing "d/a". -/
theorem c4_whiteout_apply_witness :
    ((applyWhiteout (FSNode.dir 0o777 [("d", FSNode.dir 0o755
        [("a", FSNode.file "1" 0o644), ("b", FSNode.symlink "zz")])]) "d/.wh..wh..opq").1 = true ∧
      getNode ["d"] ((applyWhiteout (FSNode.dir 0o777 [("d", FSNode.dir 0o755
        [("a", FSNode.file "1" 0o644), ("b", FSNode.symlink "zz")])]) "d/.wh..wh..opq").2) =
        some (FSNode.dir 0o755 [])) ∧
    ((applyWhiteout (FSNode.dir 0o777 [("d", FSNode.dir 0o755
        [("a", FSNode.file "1" 0o644)])]) "d/.wh.a").1 = true ∧
      getNode ["d", "a"] ((applyWhiteout (FSNode.dir 0o777 [("d", FSNode.dir 0o755
        [("a", FSNode.file "1" 0o644)])]) "d/.wh.a").2) = none) := by
  constructor
  · exact (c4_whiteout_apply (FSNode.dir 0o777 [("d", FSNode.dir 0o755
      [("a", FSNode.file "1" 0o644), ("b", FSNode.symlink "zz")])]) "d/.wh..wh..opq").1
      (by rfl) 0o755 [("a", FSNode.file "1" 0o644), ("b", FSNode.symlink "zz")] (by rfl)
  · exact (c4_whiteout_apply (FSNode.dir 0o777 [("d", FSNode.dir 0o755
      [("a", FSNode.file "1" 0o644)])]) "d/.wh.a").2.1
      (by decide) (by rfl) (by decide) (FSNode.file "1" 0o644) (by rfl)

/-- C5: hardlinks are deferred to a second pass after the member loop, so a
hardlink directive for "link" → "target" appearing before the regular entry
for "target" in the same layer still resolves — after the layer both paths
hold the same file content (and mode); and a recorded directive whose source
path does not exist at resolution time is silently dropped. -/
theorem c5_hardlink_deferred :
    (extractLayer emptyRoot
      [{ name := "link", kind := EntryKind.hardlink "target", mode := 0o644 },
       { name := "target", kind := EntryKind.regular "C", mode := 0o600 }] =
      Except.ok (FSNode.dir 0o777
        [("target", FSNode.file "C" 0o600), ("link", FSNode.file "C" 0o600)])) ∧
    (∀ (fs : FSNode) (sourceRel destRel : String) (rest : List (String × String)),
      existsAt (toSegs sourceRel) fs = false →
      applyHardlinks fs ((sourceRel, destRel) :: rest) = applyHardlinks fs rest) := by
  constructor
  · rfl
  · intro fs sourceRel destRel rest hex
    conv_lhs => rw [applyHardlinks]
    rw [if_neg (by rw [hex]; exact Bool.false_ne_true)]

/-- Witness for C5: a directive whose source "gone" does not exist in a tree
holding only "target" is dropped, leaving the empty directive list result. -/
theorem c5_hardlink_deferred_witness :
    applyHardlinks (FSNode.dir 0o777 [("target", FSNode.file "C" 0o600)])
      [("gone", "link")] =
      applyHardlinks (FSNode.dir 0o777 [("target", FSNode.file "C" 0o600)]) [] := by
  exact c5_hardlink_deferred.2 (FSNode.dir 0o777 [("target", FSNode.file "C" 0o600)])
    "gone" "link" [] (by rfl)

/-- C6: the mode of an explicit directory entry is recorded and applied only
after the whole layer is processed, so directory "d" with mode 0750 followed
by file "d/child" ends the layer with mode exactly 0750, not the permissive
default used when parents are implicitly created. -/
theorem c6_dir_mode_deferred :
    extractLayer emptyRoot
      [{ name := "d", kind := EntryKind.directory, mode := 0o750 },
       { name := "d/child", kind := EntryKind.regular "x", mode := 0o644 }] =
      Except.ok (FSNode.dir 0o777
        [("d", FSNode.dir 0o750 [("child", FSNode.file "x" 0o644)])]) ∧
    defaultDirMode ≠ 0o750 := by
  exact ⟨rfl, by decide⟩

/-- C8: later layers win on regular-file overwrites: layer1 writes f with
content "A" and mode 0644, layer2 rewrites it with content "B" and mode
0600; the merged tree holds exactly content "B" with mode 0600. -/
theorem c8_later_layer_wins :
    mergeLayers emptyRoot
      [[{ name := "f", kind := EntryKind.regular "A", mode := 0o644 }],
       [{ name := "f", kind := EntryKind.regular "B", mode := 0o600 }]] =
      Except.ok (FSNode.dir 0o777 [("f", FSNode.file "B" 0o600)]) := by
  rfl

/-- C7, counterexample: a symlink entry whose target path currently holds a
directory does not replace it; the os.unlink call fails with
IsADirectoryError and the extraction aborts. -/
theorem c7_symlink_over_dir_counterexample :
    extractLayer (FSNode.dir 0o777 [("d", FSNode.dir 0o755 [])])
      [{ name := "d", kind := EntryKind.symlink "t", mode := 0o777 }] =
      Except.error (ExtractErr.ioError "IsADirectory") := by
  rfl

/-- C7, amended: when a symlink entry is materialized over an existing
object, the overwrite is unconditional for regular files and stale symlinks
— the object is unlinked and the symlink created with the entry's link
target — but a pre-existing directory makes os.unlink fail, aborting the
merge with an I/O error instead of being replaced. -/
theorem c7_amended_symlink_overwrite (relpath linkname : String) (e : Entry) (fs : FSNode)
    (dirPerms : List (String × Nat)) (nd : FSNode)
    (hk : e.kind = EntryKind.symlink linkname)
    (htne : toSegs relpath ≠ [])
    (hdd : ∀ s ∈ toSegs relpath, s ≠ "..")
    (hex : getNode (toSegs relpath) fs = some nd) :
    ((∀ dm dcs, nd ≠ FSNode.dir dm dcs) →
      ∃ fs2, extractMember relpath e fs dirPerms = Except.ok (fs2, dirPerms) ∧
        getNode (toSegs relpath) fs2 = some (FSNode.symlink linkname)) ∧
    (∀ dm dcs, nd = FSNode.dir dm dcs →
      extractMember relpath e fs dirPerms = Except.error (ExtractErr.ioError "IsADirectory")) := by
  have hred : extractMember relpath e fs dirPerms =
      (match makedirs (toSegs relpath).dropLast fs with
       | Except.error err => Except.error err
       | Except.ok dest1 =>
           match (if lexistsAt (toSegs relpath) dest1 then unlinkAt (toSegs relpath) dest1
               else Except.ok dest1) with
           | Except.error err => Except.error err
           | Except.ok dest2 =>
               match symlinkAt (toSegs relpath) linkname dest2 with
               | Except.error err => Except.error err
               | Except.ok dest3 => Except.ok (dest3, dirPerms)) := by
    unfold extractMember
    rw [hk]
  rw [hred]
  clear hred
  generalize hgen : toSegs relpath = t at htne hdd hex ⊢
  obtain ⟨q, n, hqn⟩ : ∃ q n, t = q ++ [n] :=
    ⟨t.dropLast, t.getLastD "", seg_concat_decomp t htne⟩
  subst hqn
  clear htne
  simp only [dropLast_concat_seg]
  obtain ⟨m, cs, hq, hl⟩ := getNode_concat_decomp q n fs nd hex
  have hqdd : ∀ s ∈ q, s ≠ ".." := fun s hs => hdd s (List.mem_append_left _ hs)
  have hndd : n ≠ ".." := hdd n (List.mem_append_right _ (by simp))
  have hmk : makedirs q fs = Except.ok fs := makedirs_of_exists q fs m cs hqdd hq
  have hlex : lexistsAt (q ++ [n]) fs = true := by
    unfold lexistsAt
    rw [hex]
    rfl
  rw [hmk]
  dsimp only
  rw [if_pos hlex]
  unfold unlinkAt symlinkAt
  constructor
  · intro hnotdir
    have hul : unlinkChild cs n = Except.ok (removeChild cs n) := by
      unfold unlinkChild
      rw [hl]
      cases nd with
      | file c m2 => rfl
      | symlink t2 => rfl
      | dir dm dcs => exact absurd rfl (hnotdir dm dcs)
    rw [childOp_ok_at unlinkChild q n fs m cs _ hqdd hndd hq hul]
    dsimp only
    have hqu : getNode q (modifyChildren (fun _ => removeChild cs n) q fs) =
        some (FSNode.dir m (removeChild cs n)) :=
      getNode_modifyChildren_at _ q fs m cs hq
    have hsc : symlinkChild linkname (removeChild cs n) n =
        Except.ok (setChild (removeChild cs n) n (FSNode.symlink linkname)) := by
      unfold symlinkChild
      rw [lookup_removeChild_self]
    rw [childOp_ok_at (symlinkChild linkname) q n _ m (removeChild cs n) _ hqdd hndd hqu hsc]
    refine ⟨_, rfl, ?hfinal⟩
    have hq2 := getNode_modifyChildren_at
      (fun _ => setChild (removeChild cs n) n (FSNode.symlink linkname)) q
      (modifyChildren (fun _ => removeChild cs n) q fs) m (removeChild cs n) hqu
    rw [getNode_concat_lookup q n _ _ _ hq2, lookup_setChild_self]
  · intro dm dcs hnd
    subst hnd
    have hul : unlinkChild cs n = Except.error (ExtractErr.ioError "IsADirectory") := by
      unfold unlinkChild
      rw [hl]
    rw [childOp_err_at unlinkChild q n fs m cs _ hqdd hndd hq hul]

/-- Witness for the amended C7 theorem: a symlink entry for "d" over an
existing regular file "d" replaces it with the symlink. -/
theorem c7_amended_symlink_overwrite_witness :
    ∃ fs2, extractMember "d"
        { name := "d", kind := EntryKind.symlink "t", mode := 0o777 }
        (FSNode.dir 0o777 [("d", FSNode.file "old" 0o644)]) [] = Except.ok (fs2, []) ∧
      getNode (toSegs "d") fs2 = some (FSNode.symlink "t") := by
  exact (c7_amended_symlink_overwrite "d" "t"
    { name := "d", kind := EntryKind.symlink "t", mode := 0o777 }
    (FSNode.dir 0o777 [("d", FSNode.file "old" 0o644)]) [] (FSNode.file "old" 0o644)
    rfl (by decide) (by decide) (by rfl)).1 (by intro dm dcs h; cases h)

theorem findDataMember_none (ms : List ArMember)
    (h : ∀ m2 ∈ ms, strStartsWith (rstripSlash m2.name) "data.tar" = false) :
    findDataMember ms = Except.error (ExtractErr.ioError "missing data.tar payload") := by
  induction ms with
  | nil => rfl
  | cons m2 rest ih =>
      unfold findDataMember
      rw [if_neg (by rw [h m2 (by simp)]; exact Bool.false_ne_true)]
      exact ih (fun m3 hm3 => h m3 (by simp [hm3]))

/-- C9: applying a Debian package scans the ar members in order for the
first whose name, stripped of trailing '/', starts with "data.tar"; the
decompression transform is chosen from that stripped name's suffix; and a
package in which no member matches fails with the missing-payload error
instead of succeeding as a no-op. -/
theorem c9_deb_payload_selection :
    (∀ (dest : FSNode) (ms : List ArMember),
      (∀ m2 ∈ ms, strStartsWith (rstripSlash m2.name) "data.tar" = false) →
      applyDebPackage dest ms = Except.error (ExtractErr.ioError "missing data.tar payload")) ∧
    (∀ (pre : List ArMember) (m2 : ArMember) (post : List ArMember),
      (∀ m3 ∈ pre, strStartsWith (rstripSlash m3.name) "data.tar" = false) →
      strStartsWith (rstripSlash m2.name) "data.tar" = true →
      findDataMember (pre ++ m2 :: post) =
        Except.ok (openDataStream (rstripSlash m2.name), m2.data)) ∧
    (openDataStream "data.tar.xz" = Codec.xz ∧ openDataStream "data.tar.gz" = Codec.gz ∧
      openDataStream "data.tar.bz2" = Codec.bz2 ∧ openDataStream "data.tar" = Codec.plain) := by
  refine ⟨?hmissing, ?hfirst, by decide, by decide, by decide, by decide⟩
  · intro dest ms h
    unfold applyDebPackage
    rw [findDataMember_none ms h]
  · intro pre m2 post hpre hm
    induction pre with
    | nil =>
        unfold findDataMember
        simp only [List.nil_append]
        rw [if_pos hm]
    | cons a pre ih =>
        unfold findDataMember
        simp only [List.cons_append]
        rw [if_neg (by rw [hpre a (by simp)]; exact Bool.false_ne_true)]
        exact ih (fun m3 hm3 => hpre m3 (by simp [hm3]))

/-- Witness for C9: a package listing debian-binary, control.tar.gz and
data.tar.xz selects the third member with the xz transform; a package
without a data member fails. -/
theorem c9_deb_payload_selection_witness :
    findDataMember
      [{ name := "debian-binary", data := [] }, { name := "control.tar.gz", data := [] },
       { name := "data.tar.xz/", data := [] }] =
      Except.ok (Codec.xz, ([] : List Entry)) ∧
    applyDebPackage emptyRoot
      [{ name := "debian-binary", data := [] }, { name := "control.tar.gz", data := [] }] =
      Except.error (ExtractErr.ioError "missing data.tar payload") := by
  constructor
  · have h := c9_deb_payload_selection.2.1
      [{ name := "debian-binary", data := [] }, { name := "control.tar.gz", data := [] }]
      { name := "data.tar.xz/", data := [] } [] (by decide) (by decide)
    simpa using h
  · exact c9_deb_payload_selection.1 emptyRoot
      [{ name := "debian-binary", data := [] }, { name := "control.tar.gz", data := [] }]
      (by decide)

/-- C10: a regular-file entry whose destination path currently holds a
directory does not replace the directory; the parent makedirs leaves the
tree unchanged and the open-for-write fails with IsADirectoryError, so the
merge aborts with an I/O error and the directory is left in place. -/
theorem c10_file_over_directory_aborts (relpath content : String) (e : Entry) (fs : FSNode)
    (dirPerms : List (String × Nat)) (dm : Nat) (dcs : List (String × FSNode))
    (hk : e.kind = EntryKind.regular content)
    (htne : toSegs relpath ≠ [])
    (hdd : ∀ s ∈ toSegs relpath, s ≠ "..")
    (hdir : getNode (toSegs relpath) fs = some (FSNode.dir dm dcs)) :
    makedirs (toSegs relpath).dropLast fs = Except.ok fs ∧
      extractMember relpath e fs dirPerms = Except.error (ExtractErr.ioError "IsADirectory") := by
  have hred : extractMember relpath e fs dirPerms =
      (match makedirs (toSegs relpath).dropLast fs with
       | Except.error err => Except.error err
       | Except.ok dest1 =>
           match openWriteAt (toSegs relpath) content dest1 with
           | Except.error err => Except.error err
           | Except.ok dest2 =>
               match chmodAt (toSegs relpath) (e.mode &&& 0o777) dest2 with
               | Except.error err => Except.error err
               | Except.ok dest3 => Except.ok (dest3, dirPerms)) := by
    unfold extractMember
    rw [hk]
  rw [hred]
  clear hred
  generalize hgen : toSegs relpath = t at htne hdd hdir ⊢
  obtain ⟨q, n, hqn⟩ : ∃ q n, t = q ++ [n] :=
    ⟨t.dropLast, t.getLastD "", seg_concat_decomp t htne⟩
  subst hqn
  clear htne
  simp only [dropLast_concat_seg]
  obtain ⟨m, cs, hq, hl⟩ := getNode_concat_decomp q n fs _ hdir
  have hqdd : ∀ s ∈ q, s ≠ ".." := fun s hs => hdd s (List.mem_append_left _ hs)
  have hndd : n ≠ ".." := hdd n (List.mem_append_right _ (by simp))
  have hmk : makedirs q fs = Except.ok fs := makedirs_of_exists q fs m cs hqdd hq
  refine ⟨hmk, ?habort⟩
  rw [hmk]
  dsimp only
  have hwc : openWriteChild content cs n = Except.error (ExtractErr.ioError "IsADirectory") := by
    unfold openWriteChild
    rw [hl]
  unfold openWriteAt
  rw [childOp_err_at (openWriteChild content) q n fs m cs _ hqdd hndd hq hwc]

/-- Witness for C10: writing file "d" over the existing directory "d"
aborts with the I/O error while the makedirs step has left the tree as it
was. -/
theorem c10_file_over_directory_aborts_witness :
    makedirs (toSegs "d").dropLast (FSNode.dir 0o777 [("d", FSNode.dir 0o755 [])]) =
      Except.ok (FSNode.dir 0o777 [("d", FSNode.dir 0o755 [])]) ∧
    extractMember "d" { name := "d", kind := EntryKind.regular "x", mode := 0o644 }
      (FSNode.dir 0o777 [("d", FSNode.dir 0o755 [])]) [] =
      Except.error (ExtractErr.ioError "IsADirectory") := by
  exact c10_file_over_directory_aborts "d" "x"
    { name := "d", kind := EntryKind.regular "x", mode := 0o644 }
    (FSNode.dir 0o777 [("d", FSNode.dir 0o755 [])]) [] 0o755 []
    rfl (by decide) (by decide) (by rfl)
